import Mathlib

/-!
Verification of `png_squasher` (src/main.rs), a batch PNG optimizer:
recursive discovery of `.png` files, per-file decode → alpha preprocessing →
transform planning → resample → re-encode, and a compare-and-rename replace
step, run concurrently over all discovered files.

The development shallowly embeds the program:

* Rust `f32` arithmetic (used by the transform planner, src/main.rs 88-98)
  is modelled exactly: a nonnegative binary32 value is carried as an
  unreduced fraction `Q`, and `round32` performs IEEE-754 round-to-nearest,
  ties-to-even, in the normal range (all quantities produced by the planner
  on `u32` inputs stay far away from the subnormal and overflow ranges).
* The filesystem effects of `compress_image` (src/main.rs 63-83) are a step
  relation on an explicit target-file state, with every fallible operation's
  outcome drawn from an injected fault environment.
* Discovery (src/main.rs 106-133) runs over an inductive directory tree.
* The orchestrator (src/main.rs 135-163) is observed at the unit boundary:
  each file's unit yields either success or an error line, and the process
  exit status is computed after all units join.
-/

namespace PngSquasher

/-! ### Exact binary32 arithmetic -/

/-- An unreduced nonnegative fraction `n / d`: the executable carrier for
exact reasoning about the nonnegative `f32` values in `compress_images`. -/
structure Q where
  n : ℕ
  d : ℕ
deriving DecidableEq

/-- Semantic value of a fraction, as a rational. -/
def val (q : Q) : ℚ := (q.n : ℚ) / (q.d : ℚ)

/-- Fuel-bounded base-2 logarithm, structurally recursive so that the kernel
can evaluate it; agrees with `Nat.log2` whenever `x < 2 ^ fuel`. -/
def log2f : ℕ → ℕ → ℕ
  | 0, _ => 0
  | f + 1, x => if x ≤ 1 then 0 else log2f f (x / 2) + 1

/-- Base-2 logarithm with enough fuel for every quantity arising here. -/
def nlog2 (x : ℕ) : ℕ := log2f 300 x

/-- Does `val q < 2 ^ e` hold? (Decidable by integer comparisons.) -/
def ltPow2 (q : Q) (e : ℤ) : Bool :=
  if 0 ≤ e then decide (q.n < 2 ^ e.toNat * q.d)
  else decide (q.n * 2 ^ (-e).toNat < q.d)

/-- Floor of the base-2 logarithm of a positive fraction. -/
def log2floor (q : Q) : ℤ :=
  let e0 : ℤ := (nlog2 q.n : ℤ) - (nlog2 q.d : ℤ)
  if ltPow2 q e0 then e0 - 1 else e0

/-- Round a nonnegative fraction to the nearest integer, ties to even. -/
def rndHE (q : Q) : ℕ :=
  let i := q.n / q.d
  let r := q.n % q.d
  if 2 * r < q.d then i
  else if q.d < 2 * r then i + 1
  else if i % 2 = 0 then i else i + 1

/-- Multiply a fraction by `2 ^ k`. -/
def qscale (q : Q) (k : ℤ) : Q :=
  if 0 ≤ k then ⟨q.n * 2 ^ k.toNat, q.d⟩ else ⟨q.n, q.d * 2 ^ (-k).toNat⟩

/-- The fraction `m * 2 ^ k` for a natural significand `m`. -/
def ofScaled (m : ℕ) (k : ℤ) : Q :=
  if 0 ≤ k then ⟨m * 2 ^ k.toNat, 1⟩ else ⟨m, 2 ^ (-k).toNat⟩

/-- IEEE-754 binary32 rounding (to nearest, ties to even) of a nonnegative
fraction, in the normal range: the value is scaled into `[2^23, 2^24)`,
rounded to an integer significand, and scaled back. -/
def round32 (q : Q) : Q :=
  if q.n = 0 then ⟨0, 1⟩
  else
    let e := log2floor q
    ofScaled (rndHE (qscale q (23 - e))) (e - 23)

/-- Rust `x as f32` for `x : u32` (rounds to nearest, ties to even). -/
def toF32 (x : ℕ) : Q := round32 ⟨x, 1⟩

/-- Rust `a / b` on `f32`: correctly rounded quotient. -/
def div32 (a b : Q) : Q := round32 ⟨a.n * b.d, a.d * b.n⟩

/-- Rust `a * b` on `f32`: correctly rounded product. -/
def mul32 (a b : Q) : Q := round32 ⟨a.n * b.n, a.d * b.d⟩

/-- Rust `f32::min` on non-NaN values (returns the left argument on ties). -/
def qMin (a b : Q) : Q := if a.n * b.d ≤ b.n * a.d then a else b

/-- The `f32` literal `1.0`. -/
def one32 : Q := ⟨1, 1⟩

/-- Rust `x as u32` for a nonnegative finite `f32` value `x`: truncation
toward zero, saturating at `u32::MAX`. -/
def castU32 (q : Q) : ℕ := min (q.n / q.d) (2 ^ 32 - 1)

/-! ### Transform Planner (src/main.rs 88-98)

The `match (max_width, max_height)` at the top of the per-variant loop of
`compress_images`, translated clause by clause; `w`, `h` are the decoded
variant's dimensions. -/

/-- Target dimensions exactly as `compress_images` computes them. -/
def plan (w h : ℕ) (mw mh : Option ℕ) : ℕ × ℕ :=
  match mw, mh with
  | none, none => (w, h)
  | none, some b => (castU32 (mul32 (toF32 w) (div32 (toF32 b) (toF32 h))), b)
  | some b, none => (b, castU32 (mul32 (toF32 h) (div32 (toF32 b) (toF32 w))))
  | some bw, some bh =>
    let wr := qMin (div32 (toF32 bw) (toF32 w)) one32
    let hr := qMin (div32 (toF32 bh) (toF32 h)) one32
    (castU32 (mul32 (toF32 w) (qMin wr hr)), castU32 (mul32 (toF32 h) (qMin wr hr)))

/-- Target dimensions following the wording of the spec's policy table
(§4.2): unchanged with no bounds; uniform scale to meet a single bound; with
both bounds, one scale factor `min(max_w/orig_w, max_h/orig_h, 1.0)` applied
to both axes; every fractional product go through the integer cast of a
float product (truncation toward zero, as a Rust `as u32` cast). -/
def plan_spec (w h : ℕ) (mw mh : Option ℕ) : ℕ × ℕ :=
  match mw, mh with
  | none, none => (w, h)
  | none, some b => (castU32 (mul32 (toF32 w) (div32 (toF32 b) (toF32 h))), b)
  | some b, none => (b, castU32 (mul32 (toF32 h) (div32 (toF32 b) (toF32 w))))
  | some bw, some bh =>
    let f := qMin (qMin (div32 (toF32 bw) (toF32 w)) (div32 (toF32 bh) (toF32 h))) one32
    (castU32 (mul32 (toF32 w) f), castU32 (mul32 (toF32 h) f))

/-! ### Alpha Preprocessor (src/main.rs 46-61) -/

/-- One pixel as `DynamicImage::pixels` yields it: coordinates plus RGBA. -/
structure Pixel where
  x : ℕ
  y : ℕ
  r : ℕ
  g : ℕ
  b : ℕ
  a : ℕ
deriving DecidableEq

/-- A decoded image: dimensions, whether its color mode has an alpha
channel, and its pixels. -/
structure Image where
  width : ℕ
  height : ℕ
  hasAlpha : Bool
  pixels : List Pixel
deriving DecidableEq

/-- The `RgbImage` built pixel-by-pixel in the else-branch of
`load_and_preprocess` (src/main.rs 55-58): same dimensions, no alpha
channel, RGB copied; read back through `pixels()` the dropped channel
reports 255. -/
def stripAlpha (img : Image) : Image :=
  { width := img.width, height := img.height, hasAlpha := false,
    pixels := img.pixels.map fun p => { p with a := 255 } }

/-- The post-decode part of `load_and_preprocess` (src/main.rs 48-60). -/
def load_and_preprocess (img : Image) : List Image :=
  if !img.hasAlpha then [img]
  else if img.pixels.any fun p => p.a < 254 then [img]
  else [img, stripAlpha img]

/-! ### Safe Replace (src/main.rs 63-83) -/

/-- Outcomes injected for each fallible operation inside `compress_image`,
in source order. `none` (resp. `.ok`) means that operation succeeds when
reached; `some e` (resp. `.error e`) means it fails with error `e`. -/
structure FaultEnv where
  tempNewFail : Option String
  encodeRes : Except String (List ℕ)
  metaTargetFail : Option String
  metaTempFail : Option String
  metaPermsFail : Option String
  setPermsFail : Option String
  renameFail : Option String

/-- On-disk state of the one target path `compress_image` works on:
its byte content (`none` means the file is absent) and its read-only
attribute. -/
structure FS where
  target : Option (List ℕ)
  readonly : Bool
deriving DecidableEq

/-- Observable outcome of one `compress_image` call: the returned result,
the final state of the target path, whether the resampling kernel
(`resize`, src/main.rs 66) was invoked, and whether the final rename
(src/main.rs 82) was performed. -/
structure CompressResult where
  res : Except String Unit
  fs : FS
  resampled : Bool
  renamed : Bool

/-- `compress_image` (src/main.rs 63-83) as a state transformer. Steps, in
source order: create a named temp file (65); resize — unconditionally — the
decoded image to `nw × nh` (66); encode into the temp file (67-68); if the
target exists (70): query both sizes (71-72), return `Ok(())` discarding the
temp file when the target is strictly smaller (73-75), otherwise clear a
read-only attribute (76-80); finally rename the temp file over the target
(82). Every `?` propagates the underlying error unchanged. The unused
`w h` arguments are the decoded variant's own dimensions, recorded so that
statements can relate them to the planned `nw nh`; the source likewise
passes the image and both planned dimensions. -/
def compress_image (env : FaultEnv) (_w _h _nw _nh : ℕ) (fs : FS) : CompressResult :=
  match env.tempNewFail with
  | some e => ⟨.error e, fs, false, false⟩
  | none =>
    match env.encodeRes with
    | .error e => ⟨.error e, fs, true, false⟩
    | .ok bytes =>
      match fs.target with
      | some content =>
        match env.metaTargetFail with
        | some e => ⟨.error e, fs, true, false⟩
        | none =>
          match env.metaTempFail with
          | some e => ⟨.error e, fs, true, false⟩
          | none =>
            if content.length < bytes.length then ⟨.ok (), fs, true, false⟩
            else
              match env.metaPermsFail with
              | some e => ⟨.error e, fs, true, false⟩
              | none =>
                if fs.readonly then
                  match env.setPermsFail with
                  | some e => ⟨.error e, fs, true, false⟩
                  | none =>
                    match env.renameFail with
                    | some e => ⟨.error e, ⟨fs.target, false⟩, true, false⟩
                    | none => ⟨.ok (), ⟨some bytes, false⟩, true, true⟩
                else
                  match env.renameFail with
                  | some e => ⟨.error e, fs, true, false⟩
                  | none => ⟨.ok (), ⟨some bytes, false⟩, true, true⟩
      | none =>
        match env.renameFail with
        | some e => ⟨.error e, fs, true, false⟩
        | none => ⟨.ok (), ⟨some bytes, false⟩, true, true⟩

/-- Byte size of the target path (0 when absent). -/
def targetSize (fs : FS) : ℕ := (fs.target.map List.length).getD 0

/-- A filesystem location split into containing directory and file name. -/
structure Loc where
  dir : String
  file : String
deriving DecidableEq

/-- Modelled from the `tempfile` crate semantics of the call at
src/main.rs 65: `NamedTempFile::new()` creates the temporary file in the
operating system's default temporary directory (`std::env::temp_dir()`),
taking no argument — in particular, independent of the target path that the
temp file will later be renamed onto. -/
def tempFileDir (osTmpDir : String) (_target : Loc) : String := osTmpDir

/-! ### Discovery (src/main.rs 106-133) -/

/-- A directory tree. Entry names are carried as stem plus optional
extension, mirroring what `Path::extension()` reports for ordinary names;
`readable` is whether `read_dir` succeeds on a directory. -/
inductive FSTree where
  | file (stem : String) (ext : Option String)
  | dir (stem : String) (ext : Option String) (readable : Bool)
      (children : List FSTree)

/-- The `entry.extension()` of an entry (files and directories alike, as in
the source, which filters `entries` before splitting off directories). -/
def entExt : FSTree → Option String
  | .file _ e => e
  | .dir _ e _ _ => e

/-- The file name of an entry as it appears in its path. -/
def entName : FSTree → String
  | .file s none => s
  | .file s (some e) => s ++ "." ++ e
  | .dir s none _ _ => s
  | .dir s (some e) _ _ => s ++ "." ++ e

/-- Is the entry a directory? (`entry.is_dir()`, src/main.rs 123.) -/
def isDir : FSTree → Bool
  | .file _ _ => false
  | .dir _ _ _ _ => true

/-- The `png_entries` of one directory level (src/main.rs 112-120): every
entry — file or directory — whose extension is exactly `"png"`, as a full
path under `p`. -/
def pngEntries (p : String) (cs : List FSTree) : List String :=
  cs.filterMap fun c =>
    if entExt c = some "png" then some (p ++ "/" ++ entName c) else none

mutual

/-- `find_png_paths` (src/main.rs 106-133) on the directory at path `p`:
an unreadable directory (or a non-directory path, where `read_dir` also
fails) yields `[]`; a readable directory yields its own matching entries
followed by the recursive results for each child directory. -/
def findPngs : String → FSTree → List String
  | _, .file _ _ => []
  | _, .dir _ _ false _ => []
  | p, .dir _ _ true cs => pngEntries p cs ++ subdirPngs p cs

/-- The `child_pngs` concatenation (src/main.rs 122-131): recurse into each
child that is a directory, in entry order. -/
def subdirPngs : String → List FSTree → List String
  | _, [] => []
  | p, c :: cs =>
    (if isDir c then findPngs (p ++ "/" ++ entName c) c else []) ++ subdirPngs p cs

end

/-- Specification-level membership: `PngAt p t out` holds when `out` is a
path of an entry with extension `"png"` lying in `t` (rooted at path `p`)
reachable through a chain of readable directories. -/
inductive PngAt : String → FSTree → String → Prop where
  | here (p stem e cs c) : c ∈ cs → entExt c = some "png" →
      PngAt p (.dir stem e true cs) (p ++ "/" ++ entName c)
  | deeper (p stem e cs c out) : c ∈ cs → isDir c = true →
      PngAt (p ++ "/" ++ entName c) c out →
      PngAt p (.dir stem e true cs) out

/-! ### Batch Orchestrator (src/main.rs 135-163) -/

/-- Boundary of one file's unit of work (src/main.rs 147-151): the unit
runs `compress_images` on its path and, on error, produces the printed line
`<path>:<error>`; nothing is produced on success. -/
def unitReport (outcome : Except String Unit) (path : String) : Option String :=
  match outcome with
  | .ok _ => none
  | .error e => some (path ++ ":" ++ e)

/-- The batch after all joins (src/main.rs 146-162): one unit per
discovered path, each unit's failure caught at its own boundary; the
returned pair is the list of failure lines and the process exit status.
`main` ends in `Ok(())` regardless of unit outcomes, so the status is 0.
Thread interleaving only permutes when lines appear; the model observes
them in spawn order. -/
def runBatch (proc : String → Except String Unit) (paths : List String) :
    List String × ℕ :=
  (paths.filterMap fun p => unitReport (proc p) p, 0)

/-! ### Laws of the binary32 model -/

/-- Round-half-to-even on rationals; the `ℚ`-level mirror of `rndHE`. -/
def rndQ (x : ℚ) : ℕ :=
  if x - ⌊x⌋₊ < 1 / 2 then ⌊x⌋₊
  else if 1 / 2 < x - ⌊x⌋₊ then ⌊x⌋₊ + 1
  else if ⌊x⌋₊ % 2 = 0 then ⌊x⌋₊ else ⌊x⌋₊ + 1

theorem val_nonneg (q : Q) : 0 ≤ val q := by
  unfold val; positivity

theorem val_mk_nat (x : ℕ) : val ⟨x, 1⟩ = x := by
  simp [val]

theorem qscale_d_pos (q : Q) (k : ℤ) (hd : 0 < q.d) : 0 < (qscale q k).d := by
  unfold qscale; split
  · exact hd
  · exact Nat.mul_pos hd (pow_pos (by norm_num) _)

theorem ofScaled_d_pos (m : ℕ) (k : ℤ) : 0 < (ofScaled m k).d := by
  unfold ofScaled; split
  · norm_num
  · exact pow_pos (by norm_num) _

theorem round32_d_pos (q : Q) : 0 < (round32 q).d := by
  unfold round32; split
  · norm_num
  · exact ofScaled_d_pos _ _

theorem qMin_d_pos (a b : Q) (ha : 0 < a.d) (hb : 0 < b.d) : 0 < (qMin a b).d := by
  unfold qMin; split <;> assumption

theorem qMin_cases (a b : Q) : qMin a b = a ∨ qMin a b = b := by
  unfold qMin; split
  · exact Or.inl rfl
  · exact Or.inr rfl

theorem val_qscale (q : Q) (k : ℤ) : val (qscale q k) = val q * 2 ^ k := by
  unfold qscale val
  split
  · rename_i hk
    have h2 : ((2 : ℚ) ^ (k.toNat : ℕ)) = 2 ^ k := by
      rw [← zpow_natCast, Int.toNat_of_nonneg hk]
    push_cast
    rw [h2, mul_div_right_comm]
  · rename_i hk
    have h2 : ((2 : ℚ) ^ ((-k).toNat : ℕ)) = 2 ^ (-k) := by
      rw [← zpow_natCast, Int.toNat_of_nonneg (by omega)]
    push_cast
    rw [div_mul_eq_div_div, h2, zpow_neg, div_eq_mul_inv, inv_inv]

theorem val_ofScaled (m : ℕ) (k : ℤ) : val (ofScaled m k) = m * 2 ^ k := by
  unfold ofScaled val
  split
  · rename_i hk
    have h2 : ((2 : ℚ) ^ (k.toNat : ℕ)) = 2 ^ k := by
      rw [← zpow_natCast, Int.toNat_of_nonneg hk]
    push_cast
    rw [h2, div_one]
  · rename_i hk
    have h2 : ((2 : ℚ) ^ ((-k).toNat : ℕ)) = 2 ^ (-k) := by
      rw [← zpow_natCast, Int.toNat_of_nonneg (by omega)]
    push_cast
    rw [h2, zpow_neg, div_eq_mul_inv, inv_inv]

theorem val_div_arg (a b : Q) (ha : 0 < a.d) (hbn : 0 < b.n) (hbd : 0 < b.d) :
    val (⟨a.n * b.d, a.d * b.n⟩ : Q) = val a / val b := by
  unfold val
  have h1 : (a.d : ℚ) ≠ 0 := Nat.cast_ne_zero.mpr ha.ne'
  have h2 : (b.n : ℚ) ≠ 0 := Nat.cast_ne_zero.mpr hbn.ne'
  have h3 : (b.d : ℚ) ≠ 0 := Nat.cast_ne_zero.mpr hbd.ne'
  push_cast
  field_simp

theorem val_mul_arg (a b : Q) :
    val (⟨a.n * b.n, a.d * b.d⟩ : Q) = val a * val b := by
  unfold val
  push_cast
  rw [div_mul_div_comm]

theorem val_qMin (a b : Q) (ha : 0 < a.d) (hb : 0 < b.d) :
    val (qMin a b) = min (val a) (val b) := by
  have ha0 : (0 : ℚ) < a.d := by exact_mod_cast ha
  have hb0 : (0 : ℚ) < b.d := by exact_mod_cast hb
  unfold qMin
  split
  · rename_i h
    rw [eq_comm, min_eq_left]
    unfold val
    rw [div_le_div_iff ha0 hb0]
    exact_mod_cast h
  · rename_i h
    rw [eq_comm, min_eq_right]
    unfold val
    rw [div_le_div_iff hb0 ha0]
    have := lt_of_not_le h
    exact_mod_cast this.le

theorem val_div_mod (q : Q) (hd : 0 < q.d) :
    val q = ((q.n / q.d : ℕ) : ℚ) + ((q.n % q.d : ℕ) : ℚ) / (q.d : ℚ) := by
  have hd0 : (q.d : ℚ) ≠ 0 := Nat.cast_ne_zero.mpr hd.ne'
  have hnm : ((q.d : ℚ)) * ((q.n / q.d : ℕ) : ℚ) + ((q.n % q.d : ℕ) : ℚ) = (q.n : ℚ) := by
    exact_mod_cast congrArg (fun t : ℕ => (t : ℚ)) (Nat.div_add_mod q.n q.d)
  rw [val, ← hnm]
  field_simp
  ring

theorem fract_val (q : Q) (hd : 0 < q.d) :
    ((q.n % q.d : ℕ) : ℚ) / (q.d : ℚ) = val q - ((q.n / q.d : ℕ) : ℚ) := by
  have := val_div_mod q hd
  linarith

theorem natdiv_eq_floor (q : Q) (hd : 0 < q.d) : q.n / q.d = ⌊val q⌋₊ := by
  have hd0 : (0 : ℚ) < q.d := by exact_mod_cast hd
  symm
  rw [Nat.floor_eq_iff (val_nonneg q)]
  have hv := val_div_mod q hd
  have hfr0 : (0 : ℚ) ≤ ((q.n % q.d : ℕ) : ℚ) / (q.d : ℚ) := by positivity
  have hfr1 : ((q.n % q.d : ℕ) : ℚ) / (q.d : ℚ) < 1 := by
    rw [div_lt_one hd0]
    exact_mod_cast Nat.mod_lt _ hd
  constructor
  · linarith
  · linarith

theorem rndHE_eq_rndQ (q : Q) (hd : 0 < q.d) : rndHE q = rndQ (val q) := by
  have hd0 : (0 : ℚ) < q.d := by exact_mod_cast hd
  have h1 : (2 * (q.n % q.d) < q.d) ↔ val q - (⌊val q⌋₊ : ℚ) < 1 / 2 := by
    rw [← natdiv_eq_floor q hd, ← fract_val q hd, div_lt_div_iff hd0 (by norm_num : (0:ℚ) < 2)]
    constructor
    · intro h
      have h' : ((q.n % q.d : ℕ) : ℚ) * 2 < (q.d : ℚ) := by
        exact_mod_cast (by omega : q.n % q.d * 2 < q.d)
      linarith
    · intro h
      have h' : (q.n % q.d) * 2 < q.d := by exact_mod_cast (by linarith : ((q.n % q.d : ℕ) : ℚ) * 2 < (q.d : ℚ))
      omega
  have h2 : (q.d < 2 * (q.n % q.d)) ↔ 1 / 2 < val q - (⌊val q⌋₊ : ℚ) := by
    rw [← natdiv_eq_floor q hd, ← fract_val q hd, div_lt_div_iff (by norm_num : (0:ℚ) < 2) hd0]
    constructor
    · intro h
      have h' : (q.d : ℚ) < ((q.n % q.d : ℕ) : ℚ) * 2 := by
        exact_mod_cast (by omega : q.d < q.n % q.d * 2)
      linarith
    · intro h
      have h' : q.d < q.n % q.d * 2 := by exact_mod_cast (by linarith : (q.d : ℚ) < ((q.n % q.d : ℕ) : ℚ) * 2)
      omega
  have hE : rndHE q =
      if 2 * (q.n % q.d) < q.d then q.n / q.d
      else if q.d < 2 * (q.n % q.d) then q.n / q.d + 1
      else if q.n / q.d % 2 = 0 then q.n / q.d else q.n / q.d + 1 := rfl
  have hQ : rndQ (val q) =
      if val q - (⌊val q⌋₊ : ℚ) < 1 / 2 then ⌊val q⌋₊
      else if 1 / 2 < val q - (⌊val q⌋₊ : ℚ) then ⌊val q⌋₊ + 1
      else if ⌊val q⌋₊ % 2 = 0 then ⌊val q⌋₊ else ⌊val q⌋₊ + 1 := rfl
  rw [hE, hQ, ← natdiv_eq_floor q hd]
  rw [← natdiv_eq_floor q hd] at h1 h2
  by_cases hc1 : 2 * (q.n % q.d) < q.d
  · rw [if_pos hc1, if_pos (h1.mp hc1)]
  · rw [if_neg hc1, if_neg (fun hh => hc1 (h1.mpr hh))]
    by_cases hc2 : q.d < 2 * (q.n % q.d)
    · rw [if_pos hc2, if_pos (h2.mp hc2)]
    · rw [if_neg hc2, if_neg (fun hh => hc2 (h2.mpr hh))]

theorem rndQ_ge (x : ℚ) (hx : 0 ≤ x) : x - 1 / 2 ≤ (rndQ x : ℚ) := by
  have hfl : (⌊x⌋₊ : ℚ) ≤ x := Nat.floor_le hx
  have hfl1 : x < (⌊x⌋₊ : ℚ) + 1 := Nat.lt_floor_add_one x
  unfold rndQ
  split
  · linarith
  · split
    · push_cast; linarith
    · split
      · rename_i hlt hge _
        push_neg at hlt
        linarith
      · push_cast; linarith

theorem rndQ_le (x : ℚ) (hx : 0 ≤ x) : (rndQ x : ℚ) ≤ x + 1 / 2 := by
  have hfl : (⌊x⌋₊ : ℚ) ≤ x := Nat.floor_le hx
  have hfl1 : x < (⌊x⌋₊ : ℚ) + 1 := Nat.lt_floor_add_one x
  unfold rndQ
  split
  · linarith
  · split
    · rename_i hge hlt
      push_cast; linarith
    · split
      · linarith
      · rename_i hlt hgt _
        push_neg at hlt hgt
        push_cast
        linarith

theorem rndQ_int (j : ℕ) : rndQ (j : ℚ) = j := by
  unfold rndQ
  rw [Nat.floor_natCast]
  norm_num

theorem log2f_eq_log2 : ∀ fuel x, x < 2 ^ fuel → log2f fuel x = Nat.log2 x := by
  intro fuel
  induction fuel with
  | zero =>
    intro x hx
    have hx0 : x = 0 := by simpa using hx
    subst hx0
    simp [log2f, Nat.log2_zero]
  | succ f ih =>
    intro x hx
    simp only [log2f]
    split
    · rename_i h
      rw [Nat.log2]
      simp [show ¬ 2 ≤ x by omega]
    · rename_i h
      have hx2 : x / 2 < 2 ^ f := by
        have h2 : x < 2 ^ f * 2 := by
          rw [← pow_succ]
          exact hx
        omega
      rw [ih (x / 2) hx2]
      conv_rhs => rw [Nat.log2]
      simp [show 2 ≤ x by omega]

theorem zpow_natCast_pow (j : ℕ) : ((2 ^ j : ℕ) : ℚ) = (2 : ℚ) ^ (j : ℤ) := by
  push_cast
  rw [zpow_natCast]

theorem cast_lt_zpow (x j : ℕ) (h : x < 2 ^ j) : (x : ℚ) < (2 : ℚ) ^ (j : ℤ) := by
  rw [← zpow_natCast_pow]
  exact_mod_cast h

theorem zpow_le_cast (x j : ℕ) (h : 2 ^ j ≤ x) : (2 : ℚ) ^ (j : ℤ) ≤ (x : ℚ) := by
  rw [← zpow_natCast_pow]
  exact_mod_cast h

theorem ltPow2_iff (q : Q) (e : ℤ) (hd : 0 < q.d) :
    ltPow2 q e = true ↔ val q < 2 ^ e := by
  have hd0 : (0 : ℚ) < q.d := by exact_mod_cast hd
  unfold ltPow2
  split
  · rename_i he
    rw [decide_eq_true_eq]
    have h2 : ((2 : ℚ) ^ (e.toNat : ℕ)) = 2 ^ e := by
      rw [← zpow_natCast, Int.toNat_of_nonneg he]
    rw [val, div_lt_iff hd0, ← h2]
    constructor
    · intro h
      have hq : ((q.n : ℕ) : ℚ) < ((2 ^ e.toNat * q.d : ℕ) : ℚ) := by exact_mod_cast h
      push_cast at hq
      linarith
    · intro h
      have hq : (q.n : ℚ) < ((2 ^ e.toNat * q.d : ℕ) : ℚ) := by push_cast; linarith
      exact_mod_cast hq
  · rename_i he
    rw [decide_eq_true_eq]
    have hk : (0 : ℤ) ≤ -e := by omega
    have h2 : ((2 : ℚ) ^ ((-e).toNat : ℕ)) = 2 ^ (-e) := by
      rw [← zpow_natCast, Int.toNat_of_nonneg hk]
    have hinv : (2 : ℚ) ^ e = 1 / 2 ^ (-e) := by
      rw [zpow_neg, one_div, inv_inv]
    have hp : (0 : ℚ) < 2 ^ (-e) := zpow_pos (by norm_num) _
    rw [val, hinv, div_lt_div_iff hd0 hp]
    constructor
    · intro h
      have hq : ((q.n * 2 ^ (-e).toNat : ℕ) : ℚ) < ((q.d : ℕ) : ℚ) := by exact_mod_cast h
      push_cast at hq
      rw [h2] at hq
      linarith
    · intro h
      have hq : ((q.n * 2 ^ (-e).toNat : ℕ) : ℚ) < ((q.d : ℕ) : ℚ) := by
        push_cast
        rw [h2]
        linarith
      exact_mod_cast hq

theorem log2floor_bounds (q : Q) (hn : 0 < q.n) (hd : 0 < q.d)
    (hbn : q.n < 2 ^ 300) (hbd : q.d < 2 ^ 300) :
    (2 : ℚ) ^ log2floor q ≤ val q ∧ val q < 2 ^ (log2floor q + 1) := by
  have hd0 : (0 : ℚ) < q.d := by exact_mod_cast hd
  have hln : nlog2 q.n = Nat.log2 q.n := log2f_eq_log2 300 q.n hbn
  have hld : nlog2 q.d = Nat.log2 q.d := log2f_eq_log2 300 q.d hbd
  set e0 : ℤ := (nlog2 q.n : ℤ) - (nlog2 q.d : ℤ) with he0
  have hdef : log2floor q = if ltPow2 q e0 then e0 - 1 else e0 := rfl
  have h1 : 2 ^ Nat.log2 q.n ≤ q.n := (Nat.le_log2 hn.ne').mp le_rfl
  have h2 : q.n < 2 ^ (Nat.log2 q.n + 1) := (Nat.log2_lt hn.ne').mp (Nat.lt_succ_self _)
  have h3 : 2 ^ Nat.log2 q.d ≤ q.d := (Nat.le_log2 hd.ne').mp le_rfl
  have h4 : q.d < 2 ^ (Nat.log2 q.d + 1) := (Nat.log2_lt hd.ne').mp (Nat.lt_succ_self _)
  have he0' : e0 = (Nat.log2 q.n : ℤ) - (Nat.log2 q.d : ℤ) := by rw [he0, hln, hld]
  have c1 : (q.n : ℚ) < (2 : ℚ) ^ ((Nat.log2 q.n : ℤ) + 1) := by
    have hc := cast_lt_zpow q.n (Nat.log2 q.n + 1) h2
    have he : ((Nat.log2 q.n + 1 : ℕ) : ℤ) = (Nat.log2 q.n : ℤ) + 1 := by push_cast; ring
    rw [he] at hc
    exact hc
  have c2 : (q.d : ℚ) < (2 : ℚ) ^ ((Nat.log2 q.d : ℤ) + 1) := by
    have hc := cast_lt_zpow q.d (Nat.log2 q.d + 1) h4
    have he : ((Nat.log2 q.d + 1 : ℕ) : ℤ) = (Nat.log2 q.d : ℤ) + 1 := by push_cast; ring
    rw [he] at hc
    exact hc
  have hup : val q < 2 ^ (e0 + 1) := by
    rw [val, div_lt_iff hd0]
    calc (q.n : ℚ) < 2 ^ ((Nat.log2 q.n : ℤ) + 1) := c1
      _ = 2 ^ (e0 + 1) * 2 ^ (Nat.log2 q.d : ℤ) := by
          rw [← zpow_add₀ (by norm_num : (2 : ℚ) ≠ 0)]
          congr 1
          rw [he0']
          ring
      _ ≤ 2 ^ (e0 + 1) * q.d := by
          have := zpow_le_cast q.d (Nat.log2 q.d) h3
          exact mul_le_mul_of_nonneg_left this (by positivity)
  have hlo : (2 : ℚ) ^ (e0 - 1) < val q := by
    rw [val, lt_div_iff hd0]
    calc (2 : ℚ) ^ (e0 - 1) * q.d < 2 ^ (e0 - 1) * 2 ^ ((Nat.log2 q.d : ℤ) + 1) :=
          mul_lt_mul_of_pos_left c2 (zpow_pos (by norm_num) _)
      _ = 2 ^ (Nat.log2 q.n : ℤ) := by
          rw [← zpow_add₀ (by norm_num : (2 : ℚ) ≠ 0)]
          congr 1
          rw [he0']
          ring
      _ ≤ q.n := zpow_le_cast q.n (Nat.log2 q.n) h1
  rw [hdef]
  by_cases hc : ltPow2 q e0 = true
  · rw [if_pos hc]
    have hv := (ltPow2_iff q e0 hd).mp hc
    refine ⟨hlo.le, ?_⟩
    have he : e0 - 1 + 1 = e0 := by ring
    rw [he]
    exact hv
  · rw [if_neg hc]
    have hv : ¬ val q < 2 ^ e0 := fun h => hc ((ltPow2_iff q e0 hd).mpr h)
    exact ⟨not_lt.mp hv, hup⟩

theorem zpow_window_unique (v : ℚ) (e1 e2 : ℤ) (h1 : (2 : ℚ) ^ e1 ≤ v)
    (h2 : v < 2 ^ (e1 + 1)) (h3 : (2 : ℚ) ^ e2 ≤ v) (h4 : v < 2 ^ (e2 + 1)) :
    e1 = e2 := by
  by_contra hne
  rcases lt_or_gt_of_ne hne with h | h
  · have hle : (2 : ℚ) ^ (e1 + 1) ≤ 2 ^ e2 := zpow_le_zpow_right₀ one_le_two (by omega)
    linarith
  · have hle : (2 : ℚ) ^ (e2 + 1) ≤ 2 ^ e1 := zpow_le_zpow_right₀ one_le_two (by omega)
    linarith

theorem round32_spec (q : Q) (hn : 0 < q.n) (hd : 0 < q.d)
    (hbn : q.n < 2 ^ 300) (hbd : q.d < 2 ^ 300) :
    ∃ E : ℤ, (2 : ℚ) ^ E ≤ val q ∧ val q < 2 ^ (E + 1) ∧
      round32 q = ofScaled (rndQ (val q * 2 ^ ((23 : ℤ) - E))) (E - 23) := by
  obtain ⟨hb1, hb2⟩ := log2floor_bounds q hn hd hbn hbd
  refine ⟨log2floor q, hb1, hb2, ?_⟩
  have hdef : round32 q =
      ofScaled (rndHE (qscale q (23 - log2floor q))) (log2floor q - 23) := by
    unfold round32
    rw [if_neg (by omega : ¬ q.n = 0)]
  rw [hdef]
  congr 1
  rw [rndHE_eq_rndQ _ (qscale_d_pos q _ hd), val_qscale]

theorem nat_ge_of_gt_sub_one (a x : ℕ) (h : ((a : ℚ)) - 1 < x) : a ≤ x := by
  have h1 : (a : ℚ) < (x : ℚ) + 1 := by linarith
  have h2 : a < x + 1 := by exact_mod_cast h1
  omega

theorem nat_le_of_lt_add_one (x a : ℕ) (h : (x : ℚ) < (a : ℚ) + 1) : x ≤ a := by
  have h2 : x < a + 1 := by exact_mod_cast h
  omega

theorem round32_sig_bounds (q : Q) (hn : 0 < q.n) (hd : 0 < q.d)
    (hbn : q.n < 2 ^ 300) (hbd : q.d < 2 ^ 300) :
    ∃ E : ℤ, (2 : ℚ) ^ E ≤ val q ∧ val q < 2 ^ (E + 1) ∧
      round32 q = ofScaled (rndQ (val q * 2 ^ ((23 : ℤ) - E))) (E - 23) ∧
      2 ^ 23 ≤ rndQ (val q * 2 ^ ((23 : ℤ) - E)) ∧
      rndQ (val q * 2 ^ ((23 : ℤ) - E)) ≤ 2 ^ 24 := by
  obtain ⟨E, hE1, hE2, hrw⟩ := round32_spec q hn hd hbn hbd
  have hv0 : 0 < val q :=
    div_pos (by exact_mod_cast hn) (by exact_mod_cast hd)
  set t := val q * 2 ^ ((23 : ℤ) - E) with ht
  have ht0 : 0 ≤ t := mul_nonneg hv0.le (zpow_pos (by norm_num) _).le
  have htlo : (2 : ℚ) ^ (23 : ℤ) ≤ t := by
    rw [ht]
    calc (2 : ℚ) ^ (23 : ℤ) = 2 ^ E * 2 ^ ((23 : ℤ) - E) := by
          rw [← zpow_add₀ (by norm_num : (2 : ℚ) ≠ 0)]
          congr 1
          ring
      _ ≤ val q * 2 ^ ((23 : ℤ) - E) :=
          mul_le_mul_of_nonneg_right hE1 (zpow_pos (by norm_num) _).le
  have hthi : t < (2 : ℚ) ^ (24 : ℤ) := by
    rw [ht]
    calc val q * 2 ^ ((23 : ℤ) - E) < 2 ^ (E + 1) * 2 ^ ((23 : ℤ) - E) :=
          mul_lt_mul_of_pos_right hE2 (zpow_pos (by norm_num) _)
      _ = 2 ^ (24 : ℤ) := by
          rw [← zpow_add₀ (by norm_num : (2 : ℚ) ≠ 0)]
          congr 1
          ring
  have hc23 : (2 : ℚ) ^ (23 : ℤ) = ((2 ^ 23 : ℕ) : ℚ) := by
    rw [zpow_natCast_pow]
    norm_num
  have hc24 : (2 : ℚ) ^ (24 : ℤ) = ((2 ^ 24 : ℕ) : ℚ) := by
    rw [zpow_natCast_pow]
    norm_num
  refine ⟨E, hE1, hE2, hrw, ?_, ?_⟩
  · have hge := rndQ_ge t ht0
    apply nat_ge_of_gt_sub_one
    rw [← hc23]
    linarith
  · have hle := rndQ_le t ht0
    apply nat_le_of_lt_add_one
    rw [← hc24]
    linarith

theorem round32_ge_one (q : Q) (hn : 0 < q.n) (hd : 0 < q.d)
    (hbn : q.n < 2 ^ 300) (hbd : q.d < 2 ^ 300) (h1 : 1 ≤ val q) :
    1 ≤ val (round32 q) ∧ val (round32 q) ≤ 2 * val q := by
  obtain ⟨E, hE1, hE2, hrw, hm1, hm2⟩ := round32_sig_bounds q hn hd hbn hbd
  have hE0 : 0 ≤ E := by
    by_contra hcon
    push_neg at hcon
    have h2 : (2 : ℚ) ^ (E + 1) ≤ 2 ^ (0 : ℤ) := zpow_le_zpow_right₀ one_le_two (by omega)
    simp only [zpow_zero] at h2
    linarith
  set t := val q * 2 ^ ((23 : ℤ) - E) with ht
  have hval : val (round32 q) = (rndQ t : ℚ) * 2 ^ (E - 23) := by
    rw [hrw, val_ofScaled]
  have hc23 : ((2 ^ 23 : ℕ) : ℚ) = (2 : ℚ) ^ (23 : ℤ) := by
    rw [zpow_natCast_pow]
    norm_num
  have hc24 : ((2 ^ 24 : ℕ) : ℚ) = (2 : ℚ) ^ (24 : ℤ) := by
    rw [zpow_natCast_pow]
    norm_num
  have hm1' : (2 : ℚ) ^ (23 : ℤ) ≤ (rndQ t : ℚ) := by
    rw [← hc23]
    exact_mod_cast hm1
  have hm2' : (rndQ t : ℚ) ≤ (2 : ℚ) ^ (24 : ℤ) := by
    rw [← hc24]
    exact_mod_cast hm2
  constructor
  · rw [hval]
    calc (1 : ℚ) = 2 ^ (0 : ℤ) := by norm_num
      _ ≤ 2 ^ E := zpow_le_zpow_right₀ one_le_two hE0
      _ = 2 ^ (23 : ℤ) * 2 ^ (E - 23) := by
          rw [← zpow_add₀ (by norm_num : (2 : ℚ) ≠ 0)]
          congr 1
          ring
      _ ≤ (rndQ t : ℚ) * 2 ^ (E - 23) :=
          mul_le_mul_of_nonneg_right hm1' (zpow_pos (by norm_num) _).le
  · rw [hval]
    have hfin : (2 : ℚ) ^ E * 2 ≤ 2 * val q := by
      have := mul_le_mul_of_nonneg_right hE1 (by norm_num : (0 : ℚ) ≤ 2)
      linarith
    calc (rndQ t : ℚ) * 2 ^ (E - 23) ≤ 2 ^ (24 : ℤ) * 2 ^ (E - 23) :=
          mul_le_mul_of_nonneg_right hm2' (zpow_pos (by norm_num) _).le
      _ = 2 ^ (E + 1) := by
          rw [← zpow_add₀ (by norm_num : (2 : ℚ) ≠ 0)]
          congr 1
          ring
      _ = 2 ^ E * 2 := by
          rw [zpow_add₀ (by norm_num : (2 : ℚ) ≠ 0), zpow_one]
      _ ≤ 2 * val q := hfin

theorem round32_int (q : Q) (hn : 0 < q.n) (hd : 0 < q.d)
    (hbn : q.n < 2 ^ 300) (hbd : q.d < 2 ^ 300) (k : ℕ) (hk1 : 1 ≤ k)
    (hk2 : k ≤ 2 ^ 24) (hv : val q = k) : val (round32 q) = k := by
  obtain ⟨E, hE1, hE2, hrw⟩ := round32_spec q hn hd hbn hbd
  have hval : val (round32 q) =
      (rndQ (val q * 2 ^ ((23 : ℤ) - E)) : ℚ) * 2 ^ (E - 23) := by
    rw [hrw, val_ofScaled]
  have hE0 : 0 ≤ E := by
    by_contra hcon
    push_neg at hcon
    have h2 : (2 : ℚ) ^ (E + 1) ≤ 2 ^ (0 : ℤ) := zpow_le_zpow_right₀ one_le_two (by omega)
    simp only [zpow_zero] at h2
    have h3 : (1 : ℚ) ≤ val q := by
      rw [hv]
      exact_mod_cast hk1
    linarith
  have hE24 : E ≤ 24 := by
    by_contra hcon
    push_neg at hcon
    have h2 : (2 : ℚ) ^ (25 : ℤ) ≤ 2 ^ E := zpow_le_zpow_right₀ one_le_two (by omega)
    have h3 : val q ≤ (2 : ℚ) ^ (24 : ℤ) := by
      rw [hv, ← show ((2 ^ 24 : ℕ) : ℚ) = (2 : ℚ) ^ (24 : ℤ) by rw [zpow_natCast_pow]; norm_num]
      exact_mod_cast hk2
    have h4 : (2 : ℚ) ^ (24 : ℤ) < 2 ^ (25 : ℤ) := zpow_lt_zpow_right₀ one_lt_two (by omega)
    linarith
  by_cases hE23 : E ≤ 23
  · have h23 : (0 : ℤ) ≤ 23 - E := by omega
    have htint : val q * 2 ^ ((23 : ℤ) - E) = ((k * 2 ^ ((23 - E).toNat) : ℕ) : ℚ) := by
      rw [hv]
      push_cast
      rw [← zpow_natCast (2 : ℚ), Int.toNat_of_nonneg h23]
    rw [hval, htint, rndQ_int]
    push_cast
    rw [← zpow_natCast (2 : ℚ) ((23 - E).toNat), Int.toNat_of_nonneg h23, mul_assoc,
      ← zpow_add₀ (by norm_num : (2 : ℚ) ≠ 0)]
    rw [show (23 - E) + (E - 23) = 0 by ring]
    simp
  · have hE' : E = 24 := by omega
    have hk24 : k = 2 ^ 24 := by
      have hle : (2 : ℚ) ^ (24 : ℤ) ≤ val q := hE' ▸ hE1
      have hcst : ((2 ^ 24 : ℕ) : ℚ) ≤ (k : ℚ) := by
        rw [← hv]
        calc ((2 ^ 24 : ℕ) : ℚ) = (2 : ℚ) ^ (24 : ℤ) := by rw [zpow_natCast_pow]; norm_num
          _ ≤ val q := hle
      have h24 : (2 ^ 24 : ℕ) ≤ k := by exact_mod_cast hcst
      omega
    have htint : val q * 2 ^ ((23 : ℤ) - E) = ((2 ^ 23 : ℕ) : ℚ) := by
      rw [hv, hk24, hE']
      push_cast
      rw [zpow_neg, zpow_one]
      norm_num
    rw [hval, htint, rndQ_int, hk24, hE']
    push_cast
    rw [zpow_one]
    norm_num

theorem round32_rep (q : Q) (hn : 0 < q.n) (hd : 0 < q.d)
    (hbn : q.n < 2 ^ 300) (hbd : q.d < 2 ^ 300)
    (hlo : (2 : ℚ) ^ (-(64 : ℤ)) ≤ val q) (hhi : val q ≤ 2 ^ (64 : ℤ)) :
    0 < (round32 q).n ∧ (round32 q).n ≤ 2 ^ 89 ∧ (round32 q).d ≤ 2 ^ 87 := by
  obtain ⟨E, hE1, hE2, hrw, hm1, hm2⟩ := round32_sig_bounds q hn hd hbn hbd
  have hgeE : -(64 : ℤ) ≤ E := by
    by_contra hcon
    push_neg at hcon
    have h2 : (2 : ℚ) ^ (E + 1) ≤ 2 ^ (-(64 : ℤ)) := zpow_le_zpow_right₀ one_le_two (by omega)
    linarith
  have hleE : E ≤ 64 := by
    by_contra hcon
    push_neg at hcon
    have h2 : (2 : ℚ) ^ (65 : ℤ) ≤ 2 ^ E := zpow_le_zpow_right₀ one_le_two (by omega)
    have h3 : (2 : ℚ) ^ (64 : ℤ) < 2 ^ (65 : ℤ) := zpow_lt_zpow_right₀ one_lt_two (by omega)
    linarith
  set m := rndQ (val q * 2 ^ ((23 : ℤ) - E)) with hm
  by_cases hEc : (0 : ℤ) ≤ E - 23
  · have hsc : ofScaled m (E - 23) = ⟨m * 2 ^ (E - 23).toNat, 1⟩ := by
      unfold ofScaled
      rw [if_pos hEc]
    rw [hrw, hsc]
    refine ⟨?_, ?_, ?_⟩
    · exact Nat.mul_pos (by omega) (pow_pos (by norm_num) _)
    · have hex : (E - 23).toNat ≤ 41 := by omega
      calc m * 2 ^ (E - 23).toNat ≤ 2 ^ 24 * 2 ^ 41 :=
            Nat.mul_le_mul hm2 (Nat.pow_le_pow_right (by norm_num) hex)
        _ ≤ 2 ^ 89 := by norm_num
    · norm_num
  · have hsc : ofScaled m (E - 23) = ⟨m, 2 ^ (-(E - 23)).toNat⟩ := by
      unfold ofScaled
      rw [if_neg hEc]
    rw [hrw, hsc]
    refine ⟨by show 0 < m; omega, by calc m ≤ 2 ^ 24 := hm2
      _ ≤ 2 ^ 89 := by norm_num, ?_⟩
    have hex : (-(E - 23)).toNat ≤ 87 := by omega
    exact Nat.pow_le_pow_right (by norm_num) hex

theorem round32_congr (p q : Q) (hpd : 0 < p.d) (hqd : 0 < q.d)
    (hbpn : p.n < 2 ^ 300) (hbpd : p.d < 2 ^ 300)
    (hbqn : q.n < 2 ^ 300) (hbqd : q.d < 2 ^ 300)
    (h : val p = val q) : val (round32 p) = val (round32 q) := by
  by_cases hz : p.n = 0
  · have hvp : val p = 0 := by rw [val, hz]; simp
    have hvq : val q = 0 := by rw [← h]; exact hvp
    have hqz : q.n = 0 := by
      by_contra hc
      have hpos : 0 < val q :=
        div_pos (by exact_mod_cast Nat.pos_of_ne_zero hc) (by exact_mod_cast hqd)
      rw [hvq] at hpos
      exact lt_irrefl _ hpos
    have hp0 : round32 p = ⟨0, 1⟩ := by unfold round32; rw [if_pos hz]
    have hq0 : round32 q = ⟨0, 1⟩ := by unfold round32; rw [if_pos hqz]
    rw [hp0, hq0]
  · have hqz : q.n ≠ 0 := by
      intro hc
      have hvq : val q = 0 := by rw [val, hc]; simp
      have hpos : 0 < val p :=
        div_pos (by exact_mod_cast Nat.pos_of_ne_zero hz) (by exact_mod_cast hpd)
      rw [h, hvq] at hpos
      exact lt_irrefl _ hpos
    obtain ⟨E1, hA1, hA2, hA3⟩ := round32_spec p (Nat.pos_of_ne_zero hz) hpd hbpn hbpd
    obtain ⟨E2, hB1, hB2, hB3⟩ := round32_spec q (Nat.pos_of_ne_zero hqz) hqd hbqn hbqd
    have hE : E1 = E2 := zpow_window_unique (val p) E1 E2 hA1 hA2 (h ▸ hB1) (h ▸ hB2)
    rw [hA3, hB3, val_ofScaled, val_ofScaled, h, hE]

theorem castU32_int (q : Q) (hd : 0 < q.d) (k : ℕ) (hv : val q = k) (hk : k < 2 ^ 32) :
    castU32 q = k := by
  unfold castU32
  rw [natdiv_eq_floor q hd, hv, Nat.floor_natCast]
  exact min_eq_left (by omega)

theorem castU32_ge_one (q : Q) (hd : 0 < q.d) (h : 1 ≤ val q) : 1 ≤ castU32 q := by
  unfold castU32
  rw [natdiv_eq_floor q hd]
  have h1 : 1 ≤ ⌊val q⌋₊ := Nat.le_floor (by exact_mod_cast h)
  exact le_min h1 (by norm_num)

theorem castU32_congr (p q : Q) (hp : 0 < p.d) (hq : 0 < q.d) (h : val p = val q) :
    castU32 p = castU32 q := by
  unfold castU32
  rw [natdiv_eq_floor p hp, natdiv_eq_floor q hq, h]

/-- Representation bounds every value flowing through the planner satisfies:
they keep numerators and denominators small enough for `log2floor`'s fuel at
the next rounding step. -/
def okF (q : Q) : Prop := q.n ≤ 2 ^ 89 ∧ 0 < q.d ∧ q.d ≤ 2 ^ 87

theorem okF_one32 : okF one32 := by
  refine ⟨by norm_num [one32], by norm_num [one32], by norm_num [one32]⟩

theorem okF_qMin (a b : Q) (ha : okF a) (hb : okF b) : okF (qMin a b) := by
  rcases qMin_cases a b with h | h <;> rw [h] <;> assumption

theorem val_one32 : val one32 = 1 := by
  norm_num [one32, val]

theorem two_zpow_le (a b : ℤ) (h : a ≤ b) : (2 : ℚ) ^ a ≤ 2 ^ b :=
  zpow_le_zpow_right₀ one_le_two h

theorem toF32_zero : toF32 0 = ⟨0, 1⟩ := by
  unfold toF32 round32
  rw [if_pos rfl]

theorem toF32_good (x : ℕ) (h1 : 1 ≤ x) (h2 : x < 2 ^ 32) :
    1 ≤ val (toF32 x) ∧ val (toF32 x) ≤ (2 : ℚ) ^ (33 : ℤ) ∧ okF (toF32 x) := by
  have hxpos : 0 < (⟨x, 1⟩ : Q).n := h1
  have hdpos : 0 < (⟨x, 1⟩ : Q).d := one_pos
  have hbn : (⟨x, 1⟩ : Q).n < 2 ^ 300 := lt_of_lt_of_le h2 (by norm_num)
  have hbd : (⟨x, 1⟩ : Q).d < 2 ^ 300 := by norm_num
  have hv : val (⟨x, 1⟩ : Q) = x := val_mk_nat x
  have hv1 : 1 ≤ val (⟨x, 1⟩ : Q) := by
    rw [hv]
    exact_mod_cast h1
  have hv2 : val (⟨x, 1⟩ : Q) ≤ (2 : ℚ) ^ (32 : ℤ) := by
    rw [hv]
    calc (x : ℚ) ≤ ((2 ^ 32 : ℕ) : ℚ) := by exact_mod_cast h2.le
      _ = (2 : ℚ) ^ (32 : ℤ) := by rw [zpow_natCast_pow]; norm_num
  obtain ⟨hg1, hg2⟩ := round32_ge_one ⟨x, 1⟩ hxpos hdpos hbn hbd hv1
  obtain ⟨hr1, hr2, hr3⟩ := round32_rep ⟨x, 1⟩ hxpos hdpos hbn hbd
    (le_trans (two_zpow_le _ 0 (by omega)) (by rw [zpow_zero]; exact hv1))
    (le_trans hv2 (two_zpow_le 32 64 (by omega)))
  refine ⟨hg1, ?_, hr2, round32_d_pos _, hr3⟩
  calc val (toF32 x) ≤ 2 * val (⟨x, 1⟩ : Q) := hg2
    _ ≤ 2 * (2 : ℚ) ^ (32 : ℤ) := by linarith
    _ = (2 : ℚ) ^ (33 : ℤ) := by
        rw [show (33 : ℤ) = 1 + 32 by norm_num, zpow_add₀ (by norm_num : (2 : ℚ) ≠ 0),
          zpow_one]
    _ ≤ (2 : ℚ) ^ (33 : ℤ) := le_refl _

theorem toF32_exact (x : ℕ) (h1 : 1 ≤ x) (h2 : x ≤ 2 ^ 24) :
    val (toF32 x) = x ∧ okF (toF32 x) ∧ 0 < (toF32 x).n := by
  have hxpos : 0 < (⟨x, 1⟩ : Q).n := h1
  have hdpos : 0 < (⟨x, 1⟩ : Q).d := one_pos
  have hbn : (⟨x, 1⟩ : Q).n < 2 ^ 300 := lt_of_le_of_lt h2 (by norm_num)
  have hbd : (⟨x, 1⟩ : Q).d < 2 ^ 300 := by norm_num
  have hv : val (⟨x, 1⟩ : Q) = x := val_mk_nat x
  have hx32 : x < 2 ^ 32 := lt_of_le_of_lt h2 (by norm_num)
  obtain ⟨_, _, hok⟩ := toF32_good x h1 hx32
  have hexact : val (toF32 x) = x := round32_int ⟨x, 1⟩ hxpos hdpos hbn hbd x h1 h2 hv
  refine ⟨hexact, hok, ?_⟩
  by_contra hc
  push_neg at hc
  have hn0 : (toF32 x).n = 0 := by omega
  have : val (toF32 x) = 0 := by rw [val, hn0]; simp
  rw [hexact] at this
  have : x = 0 := by exact_mod_cast this
  omega

theorem div32_okF (a b : Q) (ha : okF a) (hbpos : 0 < b.n) (hb : okF b)
    (hlo : a.n = 0 ∨ (2 : ℚ) ^ (-(64 : ℤ)) ≤ val a / val b)
    (hhi : val a / val b ≤ (2 : ℚ) ^ (64 : ℤ)) :
    okF (div32 a b) := by
  obtain ⟨haN, haD, haD2⟩ := ha
  obtain ⟨hbN, hbD, hbD2⟩ := hb
  rcases hlo with hz | hlo
  · have harg : (⟨a.n * b.d, a.d * b.n⟩ : Q).n = 0 := by simp [hz]
    have hres : div32 a b = ⟨0, 1⟩ := by
      unfold div32 round32
      rw [if_pos harg]
    rw [hres]
    exact ⟨by norm_num, by norm_num, by norm_num⟩
  · have hapos : 0 < a.n := by
      by_contra hc
      push_neg at hc
      have han0 : a.n = 0 := by omega
      have hva : val a = 0 := by rw [val, han0]; simp
      rw [hva, zero_div] at hlo
      have hp : (0 : ℚ) < 2 ^ (-(64 : ℤ)) := zpow_pos (by norm_num) _
      linarith
    have hargn : 0 < (⟨a.n * b.d, a.d * b.n⟩ : Q).n := Nat.mul_pos hapos hbD
    have hargd : 0 < (⟨a.n * b.d, a.d * b.n⟩ : Q).d := Nat.mul_pos haD hbpos
    have hargbn : (⟨a.n * b.d, a.d * b.n⟩ : Q).n < 2 ^ 300 := by
      show a.n * b.d < 2 ^ 300
      calc a.n * b.d ≤ 2 ^ 89 * 2 ^ 87 := Nat.mul_le_mul haN hbD2
        _ < 2 ^ 300 := by norm_num
    have hargbd : (⟨a.n * b.d, a.d * b.n⟩ : Q).d < 2 ^ 300 := by
      show a.d * b.n < 2 ^ 300
      calc a.d * b.n ≤ 2 ^ 87 * 2 ^ 89 := Nat.mul_le_mul haD2 hbN
        _ < 2 ^ 300 := by norm_num
    have hvarg : val (⟨a.n * b.d, a.d * b.n⟩ : Q) = val a / val b :=
      val_div_arg a b haD hbpos hbD
    obtain ⟨hr1, hr2, hr3⟩ := round32_rep ⟨a.n * b.d, a.d * b.n⟩ hargn hargd hargbn hargbd
      (by rw [hvarg]; exact hlo) (by rw [hvarg]; exact hhi)
    exact ⟨hr2, round32_d_pos _, hr3⟩

theorem ratio_okF (x y : ℕ) (hy1 : 1 ≤ y) (hy2 : y < 2 ^ 32) (hx2 : x < 2 ^ 32) :
    okF (div32 (toF32 x) (toF32 y)) := by
  obtain ⟨hyv1, hyv2, hyok⟩ := toF32_good y hy1 hy2
  have hypos : 0 < (toF32 y).n := by
    by_contra hc
    push_neg at hc
    have hn0 : (toF32 y).n = 0 := by omega
    have : val (toF32 y) = 0 := by rw [val, hn0]; simp
    linarith
  by_cases hx : x = 0
  · subst hx
    have hz : (toF32 0).n = 0 := by rw [toF32_zero]
    apply div32_okF (toF32 0) (toF32 y) ?_ hypos hyok (Or.inl hz) ?_
    · rw [toF32_zero]
      exact ⟨by norm_num, by norm_num, by norm_num⟩
    · have hv0 : val (toF32 0) = 0 := by rw [toF32_zero, val]; simp
      rw [hv0, zero_div]
      positivity
  · obtain ⟨hxv1, hxv2, hxok⟩ := toF32_good x (by omega) hx2
    apply div32_okF (toF32 x) (toF32 y) hxok hypos hyok
    · right
      have hq : (2 : ℚ) ^ (-(33 : ℤ)) ≤ val (toF32 x) / val (toF32 y) := by
        rw [div_eq_mul_inv]
        have hinv : (2 : ℚ) ^ (-(33 : ℤ)) = 1 * ((2 : ℚ) ^ (33 : ℤ))⁻¹ := by
          rw [one_mul, ← zpow_neg]
        rw [hinv]
        have hyinv : ((2 : ℚ) ^ (33 : ℤ))⁻¹ ≤ (val (toF32 y))⁻¹ := by
          apply inv_le_inv_of_le (by linarith) hyv2
        exact mul_le_mul hxv1 hyinv (by positivity) (by linarith)
      exact le_trans (two_zpow_le _ _ (by omega)) hq
    · have hq : val (toF32 x) / val (toF32 y) ≤ (2 : ℚ) ^ (33 : ℤ) := by
        rw [div_le_iff (by linarith)]
        calc val (toF32 x) ≤ (2 : ℚ) ^ (33 : ℤ) := hxv2
          _ = (2 : ℚ) ^ (33 : ℤ) * 1 := by ring
          _ ≤ (2 : ℚ) ^ (33 : ℤ) * val (toF32 y) := by
              apply mul_le_mul_of_nonneg_left hyv1 (by positivity)
      exact le_trans hq (two_zpow_le _ _ (by omega))

theorem npos_of_val_pos (q : Q) (h : 0 < val q) : 0 < q.n := by
  by_contra hc
  push_neg at hc
  have h0 : q.n = 0 := by omega
  rw [val, h0] at h
  simp at h

theorem one32_d_pos : 0 < one32.d := by norm_num [one32]

theorem div32_ge_one (a b : Q) (ha : okF a) (hapos : 0 < a.n) (hb : okF b)
    (hbpos : 0 < b.n) (hge : 1 ≤ val a / val b) :
    1 ≤ val (div32 a b) ∧ val (div32 a b) ≤ 2 * (val a / val b) := by
  obtain ⟨haN, haD, haD2⟩ := ha
  obtain ⟨hbN, hbD, hbD2⟩ := hb
  have hargn : 0 < (⟨a.n * b.d, a.d * b.n⟩ : Q).n := Nat.mul_pos hapos hbD
  have hargd : 0 < (⟨a.n * b.d, a.d * b.n⟩ : Q).d := Nat.mul_pos haD hbpos
  have hargbn : (⟨a.n * b.d, a.d * b.n⟩ : Q).n < 2 ^ 300 := by
    show a.n * b.d < 2 ^ 300
    calc a.n * b.d ≤ 2 ^ 89 * 2 ^ 87 := Nat.mul_le_mul haN hbD2
      _ < 2 ^ 300 := by norm_num
  have hargbd : (⟨a.n * b.d, a.d * b.n⟩ : Q).d < 2 ^ 300 := by
    show a.d * b.n < 2 ^ 300
    calc a.d * b.n ≤ 2 ^ 87 * 2 ^ 89 := Nat.mul_le_mul haD2 hbN
      _ < 2 ^ 300 := by norm_num
  have hvarg : val (⟨a.n * b.d, a.d * b.n⟩ : Q) = val a / val b :=
    val_div_arg a b haD hbpos hbD
  obtain ⟨h1, h2⟩ := round32_ge_one ⟨a.n * b.d, a.d * b.n⟩ hargn hargd hargbn hargbd
    (by rw [hvarg]; exact hge)
  rw [hvarg] at h2
  exact ⟨h1, h2⟩

theorem mul32_int (a b : Q) (ha : okF a) (hapos : 0 < a.n) (hb : okF b)
    (hbpos : 0 < b.n) (k : ℕ) (hk1 : 1 ≤ k) (hk2 : k ≤ 2 ^ 24)
    (hv : val a * val b = k) : val (mul32 a b) = k := by
  obtain ⟨haN, haD, haD2⟩ := ha
  obtain ⟨hbN, hbD, hbD2⟩ := hb
  have hargn : 0 < (⟨a.n * b.n, a.d * b.d⟩ : Q).n := Nat.mul_pos hapos hbpos
  have hargd : 0 < (⟨a.n * b.n, a.d * b.d⟩ : Q).d := Nat.mul_pos haD hbD
  have hargbn : (⟨a.n * b.n, a.d * b.d⟩ : Q).n < 2 ^ 300 := by
    show a.n * b.n < 2 ^ 300
    calc a.n * b.n ≤ 2 ^ 89 * 2 ^ 89 := Nat.mul_le_mul haN hbN
      _ < 2 ^ 300 := by norm_num
  have hargbd : (⟨a.n * b.n, a.d * b.d⟩ : Q).d < 2 ^ 300 := by
    show a.d * b.d < 2 ^ 300
    calc a.d * b.d ≤ 2 ^ 87 * 2 ^ 87 := Nat.mul_le_mul haD2 hbD2
      _ < 2 ^ 300 := by norm_num
  have hvarg : val (⟨a.n * b.n, a.d * b.d⟩ : Q) = val a * val b := val_mul_arg a b
  exact round32_int ⟨a.n * b.n, a.d * b.d⟩ hargn hargd hargbn hargbd k hk1 hk2
    (by rw [hvarg]; exact hv)

theorem mul32_ge_one (a b : Q) (ha : okF a) (hapos : 0 < a.n) (hb : okF b)
    (hbpos : 0 < b.n) (h1 : 1 ≤ val a * val b) : 1 ≤ val (mul32 a b) := by
  obtain ⟨haN, haD, haD2⟩ := ha
  obtain ⟨hbN, hbD, hbD2⟩ := hb
  have hargn : 0 < (⟨a.n * b.n, a.d * b.d⟩ : Q).n := Nat.mul_pos hapos hbpos
  have hargd : 0 < (⟨a.n * b.n, a.d * b.d⟩ : Q).d := Nat.mul_pos haD hbD
  have hargbn : (⟨a.n * b.n, a.d * b.d⟩ : Q).n < 2 ^ 300 := by
    show a.n * b.n < 2 ^ 300
    calc a.n * b.n ≤ 2 ^ 89 * 2 ^ 89 := Nat.mul_le_mul haN hbN
      _ < 2 ^ 300 := by norm_num
  have hargbd : (⟨a.n * b.n, a.d * b.d⟩ : Q).d < 2 ^ 300 := by
    show a.d * b.d < 2 ^ 300
    calc a.d * b.d ≤ 2 ^ 87 * 2 ^ 87 := Nat.mul_le_mul haD2 hbD2
      _ < 2 ^ 300 := by norm_num
  have hvarg : val (⟨a.n * b.n, a.d * b.d⟩ : Q) = val a * val b := val_mul_arg a b
  exact (round32_ge_one ⟨a.n * b.n, a.d * b.d⟩ hargn hargd hargbn hargbd
    (by rw [hvarg]; exact h1)).1

theorem mul32_congr (x f1 f2 : Q) (hx : okF x) (h1 : okF f1) (h2 : okF f2)
    (hv : val f1 = val f2) : castU32 (mul32 x f1) = castU32 (mul32 x f2) := by
  apply castU32_congr _ _ (round32_d_pos _) (round32_d_pos _)
  apply round32_congr ⟨x.n * f1.n, x.d * f1.d⟩ ⟨x.n * f2.n, x.d * f2.d⟩
    (Nat.mul_pos hx.2.1 h1.2.1) (Nat.mul_pos hx.2.1 h2.2.1)
  · show x.n * f1.n < 2 ^ 300
    calc x.n * f1.n ≤ 2 ^ 89 * 2 ^ 89 := Nat.mul_le_mul hx.1 h1.1
      _ < 2 ^ 300 := by norm_num
  · show x.d * f1.d < 2 ^ 300
    calc x.d * f1.d ≤ 2 ^ 87 * 2 ^ 87 := Nat.mul_le_mul hx.2.2 h1.2.2
      _ < 2 ^ 300 := by norm_num
  · show x.n * f2.n < 2 ^ 300
    calc x.n * f2.n ≤ 2 ^ 89 * 2 ^ 89 := Nat.mul_le_mul hx.1 h2.1
      _ < 2 ^ 300 := by norm_num
  · show x.d * f2.d < 2 ^ 300
    calc x.d * f2.d ≤ 2 ^ 87 * 2 ^ 87 := Nat.mul_le_mul hx.2.2 h2.2.2
      _ < 2 ^ 300 := by norm_num
  · rw [val_mul_arg, val_mul_arg, hv]

theorem plan_both_fits (w h bw bh : ℕ)
    (hw1 : 1 ≤ w) (hw2 : w ≤ 2 ^ 24) (hh1 : 1 ≤ h) (hh2 : h ≤ 2 ^ 24)
    (hbw1 : w ≤ bw) (hbw2 : bw ≤ 2 ^ 24) (hbh1 : h ≤ bh) (hbh2 : bh ≤ 2 ^ 24) :
    plan w h (some bw) (some bh) = (w, h) := by
  obtain ⟨hvw, hwok, hwpos⟩ := toF32_exact w hw1 hw2
  obtain ⟨hvh, hhok, hhpos⟩ := toF32_exact h hh1 hh2
  obtain ⟨hvbw, hbwok, hbwpos⟩ := toF32_exact bw (by omega) hbw2
  obtain ⟨hvbh, hbhok, hbhpos⟩ := toF32_exact bh (by omega) hbh2
  set a := div32 (toF32 bw) (toF32 w) with hadef
  set b := div32 (toF32 bh) (toF32 h) with hbdef
  have haok : okF a := ratio_okF bw w hw1 (by omega) (by omega)
  have hbok : okF b := ratio_okF bh h hh1 (by omega) (by omega)
  have hage : 1 ≤ val a := by
    refine (div32_ge_one (toF32 bw) (toF32 w) hbwok hbwpos hwok hwpos ?_).1
    rw [hvbw, hvw, one_le_div (by exact_mod_cast hw1 : (0 : ℚ) < w)]
    exact_mod_cast hbw1
  have hbge : 1 ≤ val b := by
    refine (div32_ge_one (toF32 bh) (toF32 h) hbhok hbhpos hhok hhpos ?_).1
    rw [hvbh, hvh, one_le_div (by exact_mod_cast hh1 : (0 : ℚ) < h)]
    exact_mod_cast hbh1
  have hwr : val (qMin a one32) = 1 := by
    rw [val_qMin a one32 haok.2.1 one32_d_pos, val_one32]
    exact min_eq_right hage
  have hhr : val (qMin b one32) = 1 := by
    rw [val_qMin b one32 hbok.2.1 one32_d_pos, val_one32]
    exact min_eq_right hbge
  have hf : val (qMin (qMin a one32) (qMin b one32)) = 1 := by
    rw [val_qMin _ _ (qMin_d_pos _ _ haok.2.1 one32_d_pos)
      (qMin_d_pos _ _ hbok.2.1 one32_d_pos), hwr, hhr]
    exact min_self 1
  have hfok : okF (qMin (qMin a one32) (qMin b one32)) :=
    okF_qMin _ _ (okF_qMin _ _ haok okF_one32) (okF_qMin _ _ hbok okF_one32)
  have hfpos : 0 < (qMin (qMin a one32) (qMin b one32)).n :=
    npos_of_val_pos _ (by rw [hf]; norm_num)
  have hwidth : castU32 (mul32 (toF32 w) (qMin (qMin a one32) (qMin b one32))) = w := by
    have hmv : val (mul32 (toF32 w) (qMin (qMin a one32) (qMin b one32))) = w :=
      mul32_int (toF32 w) _ hwok hwpos hfok hfpos w hw1 hw2 (by rw [hvw, hf, mul_one])
    exact castU32_int _ (round32_d_pos _) w hmv (lt_of_le_of_lt hw2 (by norm_num))
  have hheight : castU32 (mul32 (toF32 h) (qMin (qMin a one32) (qMin b one32))) = h := by
    have hmv : val (mul32 (toF32 h) (qMin (qMin a one32) (qMin b one32))) = h :=
      mul32_int (toF32 h) _ hhok hhpos hfok hfpos h hh1 hh2 (by rw [hvh, hf, mul_one])
    exact castU32_int _ (round32_d_pos _) h hmv (lt_of_le_of_lt hh2 (by norm_num))
  have hplan : plan w h (some bw) (some bh) =
      (castU32 (mul32 (toF32 w) (qMin (qMin a one32) (qMin b one32))),
       castU32 (mul32 (toF32 h) (qMin (qMin a one32) (qMin b one32)))) := rfl
  rw [hplan, hwidth, hheight]

theorem plan_maxh_ge_one (w h b : ℕ)
    (hw1 : 1 ≤ w) (hw2 : w ≤ 2 ^ 24) (hh1 : 1 ≤ h) (hh2 : h ≤ 2 ^ 24)
    (hb1 : h ≤ b) (hb2 : b ≤ 2 ^ 24) :
    1 ≤ (plan w h none (some b)).1 ∧ (plan w h none (some b)).2 = b := by
  refine ⟨?_, rfl⟩
  obtain ⟨hvw, hwok, hwpos⟩ := toF32_exact w hw1 hw2
  obtain ⟨hvh, hhok, hhpos⟩ := toF32_exact h hh1 hh2
  obtain ⟨hvb, hbok, hbpos⟩ := toF32_exact b (by omega) hb2
  set r := div32 (toF32 b) (toF32 h) with hrdef
  have hrok : okF r := ratio_okF b h hh1 (by omega) (by omega)
  have hrge : 1 ≤ val r := by
    refine (div32_ge_one (toF32 b) (toF32 h) hbok hbpos hhok hhpos ?_).1
    rw [hvb, hvh, one_le_div (by exact_mod_cast hh1 : (0 : ℚ) < h)]
    exact_mod_cast hb1
  have hrpos : 0 < r.n := npos_of_val_pos r (by linarith)
  have hprod : 1 ≤ val (toF32 w) * val r := by
    rw [hvw]
    calc (1 : ℚ) = 1 * 1 := by norm_num
      _ ≤ (w : ℚ) * val r :=
        mul_le_mul (by exact_mod_cast hw1) hrge (by norm_num) (by positivity)
  have h1 : 1 ≤ val (mul32 (toF32 w) r) :=
    mul32_ge_one (toF32 w) r hwok hwpos hrok hrpos hprod
  show 1 ≤ castU32 (mul32 (toF32 w) r)
  exact castU32_ge_one _ (round32_d_pos _) h1

theorem plan_maxw_ge_one (w h b : ℕ)
    (hw1 : 1 ≤ w) (hw2 : w ≤ 2 ^ 24) (hh1 : 1 ≤ h) (hh2 : h ≤ 2 ^ 24)
    (hb1 : w ≤ b) (hb2 : b ≤ 2 ^ 24) :
    (plan w h (some b) none).1 = b ∧ 1 ≤ (plan w h (some b) none).2 := by
  refine ⟨rfl, ?_⟩
  obtain ⟨hvw, hwok, hwpos⟩ := toF32_exact w hw1 hw2
  obtain ⟨hvh, hhok, hhpos⟩ := toF32_exact h hh1 hh2
  obtain ⟨hvb, hbok, hbpos⟩ := toF32_exact b (by omega) hb2
  set r := div32 (toF32 b) (toF32 w) with hrdef
  have hrok : okF r := ratio_okF b w hw1 (by omega) (by omega)
  have hrge : 1 ≤ val r := by
    refine (div32_ge_one (toF32 b) (toF32 w) hbok hbpos hwok hwpos ?_).1
    rw [hvb, hvw, one_le_div (by exact_mod_cast hw1 : (0 : ℚ) < w)]
    exact_mod_cast hb1
  have hrpos : 0 < r.n := npos_of_val_pos r (by linarith)
  have hprod : 1 ≤ val (toF32 h) * val r := by
    rw [hvh]
    calc (1 : ℚ) = 1 * 1 := by norm_num
      _ ≤ (h : ℚ) * val r :=
        mul_le_mul (by exact_mod_cast hh1) hrge (by norm_num) (by positivity)
  have h1 : 1 ≤ val (mul32 (toF32 h) r) :=
    mul32_ge_one (toF32 h) r hhok hhpos hrok hrpos hprod
  show 1 ≤ castU32 (mul32 (toF32 h) r)
  exact castU32_ge_one _ (round32_d_pos _) h1

theorem plan_eq_spec_both (w h bw bh : ℕ)
    (hw1 : 1 ≤ w) (hw2 : w < 2 ^ 32) (hh1 : 1 ≤ h) (hh2 : h < 2 ^ 32)
    (hbw : bw < 2 ^ 32) (hbh : bh < 2 ^ 32) :
    plan w h (some bw) (some bh) = plan_spec w h (some bw) (some bh) := by
  set a := div32 (toF32 bw) (toF32 w) with hadef
  set b := div32 (toF32 bh) (toF32 h) with hbdef
  have haok : okF a := ratio_okF bw w hw1 hw2 hbw
  have hbok : okF b := ratio_okF bh h hh1 hh2 hbh
  have hwok : okF (toF32 w) := (toF32_good w hw1 hw2).2.2
  have hhok : okF (toF32 h) := (toF32_good h hh1 hh2).2.2
  have hfv : val (qMin (qMin a one32) (qMin b one32)) = val (qMin (qMin a b) one32) := by
    rw [val_qMin _ _ (qMin_d_pos _ _ haok.2.1 one32_d_pos)
      (qMin_d_pos _ _ hbok.2.1 one32_d_pos),
      val_qMin a one32 haok.2.1 one32_d_pos, val_qMin b one32 hbok.2.1 one32_d_pos,
      val_qMin _ _ (qMin_d_pos _ _ haok.2.1 hbok.2.1) one32_d_pos,
      val_qMin a b haok.2.1 hbok.2.1, val_one32, min_min_min_comm, min_self]
  have hf1ok : okF (qMin (qMin a one32) (qMin b one32)) :=
    okF_qMin _ _ (okF_qMin _ _ haok okF_one32) (okF_qMin _ _ hbok okF_one32)
  have hf2ok : okF (qMin (qMin a b) one32) :=
    okF_qMin _ _ (okF_qMin _ _ haok hbok) okF_one32
  have hL : plan w h (some bw) (some bh) =
      (castU32 (mul32 (toF32 w) (qMin (qMin a one32) (qMin b one32))),
       castU32 (mul32 (toF32 h) (qMin (qMin a one32) (qMin b one32)))) := rfl
  have hR : plan_spec w h (some bw) (some bh) =
      (castU32 (mul32 (toF32 w) (qMin (qMin a b) one32)),
       castU32 (mul32 (toF32 h) (qMin (qMin a b) one32))) := rfl
  rw [hL, hR, mul32_congr (toF32 w) _ _ hwok hf1ok hf2ok hfv,
    mul32_congr (toF32 h) _ _ hhok hf1ok hf2ok hfv]

/-! ### Laws of `compress_image` -/

theorem compress_never_grow (env : FaultEnv) (w h nw nh : ℕ) (tg : Option (List ℕ))
    (ro : Bool) (content : List ℕ) (htarget : tg = some content) :
    targetSize (compress_image env w h nw nh ⟨tg, ro⟩).fs ≤ targetSize ⟨tg, ro⟩ := by
  subst htarget
  rcases env with ⟨t, e, m1, m2, m3, s, r⟩
  cases t with
  | some et => simp [compress_image, targetSize]
  | none =>
  cases e with
  | error ee => simp [compress_image, targetSize]
  | ok bs =>
  cases m1 with
  | some e1 => simp [compress_image, targetSize]
  | none =>
  cases m2 with
  | some e2 => simp [compress_image, targetSize]
  | none =>
  by_cases hlt : content.length < bs.length
  · simp [compress_image, targetSize, hlt]
  · cases m3 with
    | some e3 => simp [compress_image, targetSize, hlt]
    | none =>
    cases ro with
    | true =>
      cases s with
      | some e4 => simp [compress_image, targetSize, hlt]
      | none =>
        cases r with
        | some e5 => simp [compress_image, targetSize, hlt]
        | none => simp [compress_image, targetSize, hlt]; omega
    | false =>
      cases r with
      | some e5 => simp [compress_image, targetSize, hlt]
      | none => simp [compress_image, targetSize, hlt]; omega

theorem compress_target_stable (env : FaultEnv) (w h nw nh : ℕ) (fs : FS)
    (hren : (compress_image env w h nw nh fs).renamed = false) :
    (compress_image env w h nw nh fs).fs.target = fs.target := by
  rcases env with ⟨t, e, m1, m2, m3, s, r⟩
  rcases fs with ⟨tg, ro⟩
  cases t with
  | some et => simp [compress_image]
  | none =>
  cases e with
  | error ee => simp [compress_image]
  | ok bs =>
  cases tg with
  | none =>
    cases r with
    | some e5 => simp [compress_image]
    | none => simp [compress_image] at hren
  | some content =>
  cases m1 with
  | some e1 => simp [compress_image]
  | none =>
  cases m2 with
  | some e2 => simp [compress_image]
  | none =>
  by_cases hlt : content.length < bs.length
  · simp [compress_image, hlt]
  · cases m3 with
    | some e3 => simp [compress_image, hlt]
    | none =>
    cases ro with
    | true =>
      cases s with
      | some e4 => simp [compress_image, hlt]
      | none =>
        cases r with
        | some e5 => simp [compress_image, hlt]
        | none => simp [compress_image, hlt] at hren
    | false =>
      cases r with
      | some e5 => simp [compress_image, hlt]
      | none => simp [compress_image, hlt] at hren

/-! ### Claim theorems -/

/-- C1: Safe Replace renames the freshly encoded temp file over the target
only when the existing target's byte size is not strictly smaller than the
temp file's; when the target is strictly smaller, the temp file is
discarded, the target is left byte-identical and the call returns `Ok`
(the skip outcome); and, whatever faults occur, the target's post-run size
never exceeds its pre-run size. -/
theorem C1_safe_replace_skip_and_never_grow (env : FaultEnv) (w h nw nh : ℕ)
    (fs : FS) (content bytes : List ℕ) (htarget : fs.target = some content)
    (h1 : env.tempNewFail = none) (h2 : env.encodeRes = .ok bytes)
    (h3 : env.metaTargetFail = none) (h4 : env.metaTempFail = none)
    (h5 : env.metaPermsFail = none) (h6 : env.setPermsFail = none)
    (h7 : env.renameFail = none) :
    (content.length < bytes.length →
      (compress_image env w h nw nh fs).renamed = false ∧
      (compress_image env w h nw nh fs).fs.target = some content ∧
      (compress_image env w h nw nh fs).res = .ok ()) ∧
    (bytes.length ≤ content.length →
      (compress_image env w h nw nh fs).renamed = true ∧
      (compress_image env w h nw nh fs).fs.target = some bytes) ∧
    (∀ env2 : FaultEnv, targetSize (compress_image env2 w h nw nh fs).fs ≤ targetSize fs) := by
  rcases env with ⟨t, e, m1, m2, m3, s, r⟩
  rcases fs with ⟨tg, ro⟩
  have htg : tg = some content := htarget
  subst htg
  have ht : t = none := h1
  have he : e = Except.ok bytes := h2
  have hm1 : m1 = none := h3
  have hm2 : m2 = none := h4
  have hm3 : m3 = none := h5
  have hs : s = none := h6
  have hr : r = none := h7
  subst ht he hm1 hm2 hm3 hs hr
  refine ⟨?_, ?_, ?_⟩
  · intro hlt
    cases ro <;> simp [compress_image, hlt]
  · intro hle
    have hnlt : ¬ content.length < bytes.length := by omega
    cases ro <;> simp [compress_image, hnlt]
  · intro env2
    exact compress_never_grow env2 w h nw nh (some content) ro content rfl

/-- Witness for C1 at a concrete input: a 2-byte target and a 3-byte temp
file is a skip that leaves the target byte-identical, and the post-run size
is bounded by the pre-run size. -/
theorem C1_safe_replace_skip_and_never_grow_witness :
    (compress_image ⟨none, .ok [1, 2, 3], none, none, none, none, none⟩ 4 4 4 4
      ⟨some [7, 7], false⟩).renamed = false ∧
    (compress_image ⟨none, .ok [1, 2, 3], none, none, none, none, none⟩ 4 4 4 4
      ⟨some [7, 7], false⟩).fs.target = some [7, 7] ∧
    (compress_image ⟨none, .ok [1, 2, 3], none, none, none, none, none⟩ 4 4 4 4
      ⟨some [7, 7], false⟩).res = .ok () :=
  (C1_safe_replace_skip_and_never_grow ⟨none, .ok [1, 2, 3], none, none, none, none, none⟩
    4 4 4 4 ⟨some [7, 7], false⟩ [7, 7] [1, 2, 3] rfl rfl rfl rfl rfl rfl rfl rfl).1
    (by norm_num)

/-- C2: every failure injected before the final rename — temp-file
creation, encode, either metadata query, the permission metadata query, or
clearing the read-only flag — surfaces as `Err` carrying that same error,
and any run that never reaches the rename leaves the target's content
byte-identical. -/
theorem C2_pre_rename_failures_preserve_target (env : FaultEnv) (w h nw nh : ℕ)
    (fs : FS) :
    ((compress_image env w h nw nh fs).renamed = false →
      (compress_image env w h nw nh fs).fs.target = fs.target) ∧
    (∀ e, env.tempNewFail = some e →
      (compress_image env w h nw nh fs).res = .error e ∧
      (compress_image env w h nw nh fs).fs.target = fs.target) ∧
    (∀ e, env.tempNewFail = none → env.encodeRes = .error e →
      (compress_image env w h nw nh fs).res = .error e ∧
      (compress_image env w h nw nh fs).fs.target = fs.target) ∧
    (∀ e content bs, env.tempNewFail = none → env.encodeRes = .ok bs →
      fs.target = some content → env.metaTargetFail = some e →
      (compress_image env w h nw nh fs).res = .error e ∧
      (compress_image env w h nw nh fs).fs.target = fs.target) ∧
    (∀ e content bs, env.tempNewFail = none → env.encodeRes = .ok bs →
      fs.target = some content → env.metaTargetFail = none →
      env.metaTempFail = some e →
      (compress_image env w h nw nh fs).res = .error e ∧
      (compress_image env w h nw nh fs).fs.target = fs.target) ∧
    (∀ e content bs, env.tempNewFail = none → env.encodeRes = .ok bs →
      fs.target = some content → env.metaTargetFail = none →
      env.metaTempFail = none → ¬ content.length < bs.length →
      env.metaPermsFail = some e →
      (compress_image env w h nw nh fs).res = .error e ∧
      (compress_image env w h nw nh fs).fs.target = fs.target) ∧
    (∀ e content bs, env.tempNewFail = none → env.encodeRes = .ok bs →
      fs.target = some content → env.metaTargetFail = none →
      env.metaTempFail = none → ¬ content.length < bs.length →
      env.metaPermsFail = none → fs.readonly = true → env.setPermsFail = some e →
      (compress_image env w h nw nh fs).res = .error e ∧
      (compress_image env w h nw nh fs).fs.target = fs.target) := by
  refine ⟨compress_target_stable env w h nw nh fs, ?_, ?_, ?_, ?_, ?_, ?_⟩
  · intro e he
    rcases env with ⟨t, em, m1, m2, m3, s, r⟩
    have ht : t = some e := he
    subst ht
    simp [compress_image]
  · intro e h1 h2
    rcases env with ⟨t, em, m1, m2, m3, s, r⟩
    have ht : t = none := h1
    have hem : em = Except.error e := h2
    subst ht hem
    simp [compress_image]
  · intro e content bs h1 h2 h3 h4
    rcases env with ⟨t, em, m1, m2, m3, s, r⟩
    rcases fs with ⟨tg, ro⟩
    have ht : t = none := h1
    have hem : em = Except.ok bs := h2
    have htg : tg = some content := h3
    have hm1 : m1 = some e := h4
    subst ht hem htg hm1
    simp [compress_image]
  · intro e content bs h1 h2 h3 h4 h5
    rcases env with ⟨t, em, m1, m2, m3, s, r⟩
    rcases fs with ⟨tg, ro⟩
    have ht : t = none := h1
    have hem : em = Except.ok bs := h2
    have htg : tg = some content := h3
    have hm1 : m1 = none := h4
    have hm2 : m2 = some e := h5
    subst ht hem htg hm1 hm2
    simp [compress_image]
  · intro e content bs h1 h2 h3 h4 h5 h6 h7
    rcases env with ⟨t, em, m1, m2, m3, s, r⟩
    rcases fs with ⟨tg, ro⟩
    have ht : t = none := h1
    have hem : em = Except.ok bs := h2
    have htg : tg = some content := h3
    have hm1 : m1 = none := h4
    have hm2 : m2 = none := h5
    have hm3 : m3 = some e := h7
    subst ht hem htg hm1 hm2 hm3
    simp [compress_image, h6]
  · intro e content bs h1 h2 h3 h4 h5 h6 h7 h8 h9
    rcases env with ⟨t, em, m1, m2, m3, s, r⟩
    rcases fs with ⟨tg, ro⟩
    have ht : t = none := h1
    have hem : em = Except.ok bs := h2
    have htg : tg = some content := h3
    have hm1 : m1 = none := h4
    have hm2 : m2 = none := h5
    have hm3 : m3 = none := h7
    have hro : ro = true := h8
    have hs : s = some e := h9
    subst ht hem htg hm1 hm2 hm3 hro hs
    simp [compress_image, h6]

/-- Witness for C2 at a concrete input: an injected encode failure is
returned verbatim and the target is untouched. -/
theorem C2_pre_rename_failures_preserve_target_witness :
    (compress_image ⟨none, .error "boom", none, none, none, none, none⟩ 4 4 4 4
      ⟨some [7, 7], false⟩).res = .error "boom" ∧
    (compress_image ⟨none, .error "boom", none, none, none, none, none⟩ 4 4 4 4
      ⟨some [7, 7], false⟩).fs.target = some [7, 7] :=
  (C2_pre_rename_failures_preserve_target
    ⟨none, .error "boom", none, none, none, none, none⟩ 4 4 4 4
    ⟨some [7, 7], false⟩).2.2.1 "boom" rfl rfl

/-- C10 counterexample: with planned dimensions (10, 10) equal to the
variant's own dimensions (10, 10), `compress_image` still invokes the
resampling kernel (`resize` at src/main.rs 66 runs unconditionally), so the
claim that the Resampler runs only when the planned dimensions differ is
false on the code. -/
theorem C10_counterexample :
    (compress_image ⟨none, .ok [1, 2], none, none, none, none, none⟩ 10 10 10 10
      ⟨some [9, 9, 9], false⟩).resampled = true := rfl

/-- C10 (amended): the Resampler is invoked unconditionally on every
variant — whenever temp-file creation succeeds and processing reaches the
resize call — independent of whether the planned dimensions equal the
variant's own dimensions. -/
theorem C10_resampler_unconditional (env : FaultEnv) (w h nw nh : ℕ) (fs : FS)
    (htemp : env.tempNewFail = none) :
    (compress_image env w h nw nh fs).resampled = true := by
  rcases env with ⟨t, e, m1, m2, m3, s, r⟩
  rcases fs with ⟨tg, ro⟩
  have ht : t = none := htemp
  subst ht
  cases e with
  | error ee => simp [compress_image]
  | ok bs =>
  cases tg with
  | none =>
    cases r with
    | some e5 => simp [compress_image]
    | none => simp [compress_image]
  | some content =>
  cases m1 with
  | some e1 => simp [compress_image]
  | none =>
  cases m2 with
  | some e2 => simp [compress_image]
  | none =>
  by_cases hlt : content.length < bs.length
  · simp [compress_image, hlt]
  · cases m3 with
    | some e3 => simp [compress_image, hlt]
    | none =>
    cases ro with
    | true =>
      cases s with
      | some e4 => simp [compress_image, hlt]
      | none =>
        cases r with
        | some e5 => simp [compress_image, hlt]
        | none => simp [compress_image, hlt]
    | false =>
      cases r with
      | some e5 => simp [compress_image, hlt]
      | none => simp [compress_image, hlt]

/-- Witness for C10's amended theorem: the kernel runs even at equal
dimensions on the success path. -/
theorem C10_resampler_unconditional_witness :
    (compress_image ⟨none, .ok [5], none, none, none, none, none⟩ 8 8 8 8
      ⟨some [1], true⟩).resampled = true :=
  C10_resampler_unconditional ⟨none, .ok [5], none, none, none, none, none⟩ 8 8 8 8
    ⟨some [1], true⟩ rfl

/-- C3: the Alpha Preprocessor returns exactly the single unchanged image
when the image has no alpha channel, or when some pixel's alpha is below
254; when the image has alpha and every pixel's alpha is at least 254, it
returns exactly the two variants `[image, alpha-stripped image]` in that
order, and the stripped variant keeps the dimensions and the RGB value of
every pixel. -/
theorem C3_alpha_preprocessor (img : Image) :
    (img.hasAlpha = false → load_and_preprocess img = [img]) ∧
    (img.hasAlpha = true → (∃ p ∈ img.pixels, p.a < 254) →
      load_and_preprocess img = [img]) ∧
    (img.hasAlpha = true → (∀ p ∈ img.pixels, 254 ≤ p.a) →
      load_and_preprocess img = [img, stripAlpha img] ∧
      (stripAlpha img).hasAlpha = false ∧
      (stripAlpha img).width = img.width ∧ (stripAlpha img).height = img.height ∧
      (stripAlpha img).pixels.map (fun p => (p.x, p.y, p.r, p.g, p.b)) =
        img.pixels.map (fun p => (p.x, p.y, p.r, p.g, p.b))) := by
  refine ⟨?_, ?_, ?_⟩
  · intro hA
    unfold load_and_preprocess
    rw [hA]
    simp
  · intro hA hex
    obtain ⟨p, hp, hpa⟩ := hex
    have hany : (img.pixels.any fun p => p.a < 254) = true :=
      List.any_eq_true.mpr ⟨p, hp, by simpa using hpa⟩
    unfold load_and_preprocess
    rw [hA, hany]
    simp
  · intro hA hall
    have hany : (img.pixels.any fun p => p.a < 254) = false := by
      rw [Bool.eq_false_iff]
      intro hc
      obtain ⟨p, hp, hdec⟩ := List.any_eq_true.mp hc
      have := hall p hp
      simp at hdec
      omega
    refine ⟨?_, rfl, rfl, rfl, ?_⟩
    · unfold load_and_preprocess
      rw [hA, hany]
      simp
    · show (img.pixels.map fun p => { p with a := 255 }).map
        (fun p => (p.x, p.y, p.r, p.g, p.b)) = _
      rw [List.map_map]
      rfl

/-- Witness for C3 at a concrete input: an all-opaque two-pixel RGBA image
yields the two variants with RGB preserved. -/
theorem C3_alpha_preprocessor_witness :
    load_and_preprocess ⟨2, 1, true, [⟨0, 0, 1, 2, 3, 255⟩, ⟨1, 0, 4, 5, 6, 254⟩]⟩ =
      [⟨2, 1, true, [⟨0, 0, 1, 2, 3, 255⟩, ⟨1, 0, 4, 5, 6, 254⟩]⟩,
       stripAlpha ⟨2, 1, true, [⟨0, 0, 1, 2, 3, 255⟩, ⟨1, 0, 4, 5, 6, 254⟩]⟩] :=
  ((C3_alpha_preprocessor ⟨2, 1, true, [⟨0, 0, 1, 2, 3, 255⟩, ⟨1, 0, 4, 5, 6, 254⟩]⟩).2.2
    rfl (by decide)).1

/-- C4: the planned dimensions follow the spec's policy table — unchanged
with no bounds; height pinned to the bound and width the truncated float
product with only a max-height (symmetrically for max-width); with both
bounds one factor `min(max_w/orig_w, max_h/orig_h, 1.0)` applied to both
axes — where every fractional product is turned into a `u32` by Rust's
float-to-integer cast (truncation toward zero). `plan` is the code's
computation, `plan_spec` is written from the table's wording; they agree on
all decoded dimensions and `u32` bounds. -/
theorem C4_planner_policy_table (w h : ℕ) (omw omh : Option ℕ)
    (hw1 : 1 ≤ w) (hw2 : w < 2 ^ 32) (hh1 : 1 ≤ h) (hh2 : h < 2 ^ 32)
    (hbw : ∀ b, omw = some b → b < 2 ^ 32) (hbh : ∀ b, omh = some b → b < 2 ^ 32) :
    plan w h omw omh = plan_spec w h omw omh := by
  match omw, omh with
  | none, none => rfl
  | none, some b => rfl
  | some b, none => rfl
  | some bw, some bh =>
    exact plan_eq_spec_both w h bw bh hw1 hw2 hh1 hh2 (hbw bw rfl) (hbh bh rfl)

/-- Witness for C4 at a concrete input with both bounds present. -/
theorem C4_planner_policy_table_witness :
    plan 2 2 (some 3) (some 5) = plan_spec 2 2 (some 3) (some 5) :=
  C4_planner_policy_table 2 2 (some 3) (some 5) (by norm_num) (by norm_num)
    (by norm_num) (by norm_num)
    (fun b hb => by injection hb with hb2; subst hb2; norm_num)
    (fun b hb => by injection hb with hb2; subst hb2; norm_num)

/-- C5 counterexample: a 100×100 image already fits under a sole max-width
of 200, yet the planner returns 200×200 — it upscales to meet a single
bound — so "output equals original whenever the original fits, whether one
bound or both are given" is false on the code. -/
theorem C5_counterexample :
    plan 100 100 (some 200) none = (200, 200) ∧
    plan 100 100 (some 200) none ≠ (100, 100) := by
  constructor
  · decide
  · decide

/-- C5 (amended): the no-upscale property holds when BOTH bounds are given
and the original dimensions fit within them (single-bound cases scale to
meet the bound exactly, upscaling if needed); dimensions and bounds at most
2^24 keep every quantity exactly representable in `f32`. -/
theorem C5_no_upscale_both_bounds (w h bw bh : ℕ)
    (hw1 : 1 ≤ w) (hw2 : w ≤ 2 ^ 24) (hh1 : 1 ≤ h) (hh2 : h ≤ 2 ^ 24)
    (hbw1 : w ≤ bw) (hbw2 : bw ≤ 2 ^ 24) (hbh1 : h ≤ bh) (hbh2 : bh ≤ 2 ^ 24) :
    plan w h (some bw) (some bh) = (w, h) :=
  plan_both_fits w h bw bh hw1 hw2 hh1 hh2 hbw1 hbw2 hbh1 hbh2

/-- Witness for C5's amended theorem at a concrete input. -/
theorem C5_no_upscale_both_bounds_witness : plan 30 20 (some 40) (some 25) = (30, 20) :=
  C5_no_upscale_both_bounds 30 20 40 25 (by norm_num) (by norm_num) (by norm_num)
    (by norm_num) (by norm_num) (by norm_num) (by norm_num) (by norm_num)

/-- C7 counterexample: a decoded 1×1000 image with max-height 1 plans
0×1 — the computed width truncates to zero — so "the computed target
dimensions are always at least 1×1" is false on the code. -/
theorem C7_counterexample : plan 1 1000 none (some 1) = (0, 1) := by decide

/-- C7 (amended): the planned dimensions are at least 1×1 when no bounds
are given, and also whenever every given bound is at least the
corresponding original dimension (all quantities at most 2^24); with a
shrinking bound an axis can truncate to zero. -/
theorem C7_dims_ge_one (w h : ℕ) (omw omh : Option ℕ)
    (hw1 : 1 ≤ w) (hw2 : w ≤ 2 ^ 24) (hh1 : 1 ≤ h) (hh2 : h ≤ 2 ^ 24)
    (hbw : ∀ b, omw = some b → w ≤ b ∧ b ≤ 2 ^ 24)
    (hbh : ∀ b, omh = some b → h ≤ b ∧ b ≤ 2 ^ 24) :
    1 ≤ (plan w h omw omh).1 ∧ 1 ≤ (plan w h omw omh).2 := by
  match omw, omh with
  | none, none => exact ⟨hw1, hh1⟩
  | none, some b =>
    obtain ⟨hb1, hb2⟩ := hbh b rfl
    obtain ⟨hx1, hx2⟩ := plan_maxh_ge_one w h b hw1 hw2 hh1 hh2 hb1 hb2
    refine ⟨hx1, ?_⟩
    rw [hx2]
    omega
  | some b, none =>
    obtain ⟨hb1, hb2⟩ := hbw b rfl
    obtain ⟨hx1, hx2⟩ := plan_maxw_ge_one w h b hw1 hw2 hh1 hh2 hb1 hb2
    refine ⟨?_, hx2⟩
    rw [hx1]
    omega
  | some bw, some bh =>
    obtain ⟨hbw1, hbw2⟩ := hbw bw rfl
    obtain ⟨hbh1, hbh2⟩ := hbh bh rfl
    rw [plan_both_fits w h bw bh hw1 hw2 hh1 hh2 hbw1 hbw2 hbh1 hbh2]
    exact ⟨hw1, hh1⟩

/-- Witness for C7's amended theorem at a concrete input. -/
theorem C7_dims_ge_one_witness :
    1 ≤ (plan 3 4 none (some 6)).1 ∧ 1 ≤ (plan 3 4 none (some 6)).2 :=
  C7_dims_ge_one 3 4 none (some 6) (by norm_num) (by norm_num) (by norm_num)
    (by norm_num) (fun b hb => by cases hb)
    (fun b hb => by injection hb with hb2; subst hb2; norm_num)

/-- C6 (the code evaluated at the failing configuration): the temporary
file is created by `NamedTempFile::new()` in the operating system's
temporary directory, which is not the directory of a target lying
elsewhere — so the claim that the temp file lives in the target's directory
(same filesystem, enabling the atomic rename) fails; `fs::rename` across
filesystems errors instead. -/
theorem C6_temp_file_not_in_target_dir :
    tempFileDir "C:/Users/u/AppData/Local/Temp" ⟨"D:/project", "img.png"⟩ ≠
      "D:/project" := by decide

mutual

theorem findPngs_mem (p : String) (t : FSTree) (out : String) :
    out ∈ findPngs p t ↔ PngAt p t out := by
  cases t with
  | file s e =>
    constructor
    · intro hmem
      simp [findPngs] at hmem
    · intro hp
      cases hp
  | dir s e rd cs =>
    cases rd with
    | false =>
      constructor
      · intro hmem
        simp [findPngs] at hmem
      · intro hp
        cases hp
    | true =>
      rw [show findPngs p (.dir s e true cs) = pngEntries p cs ++ subdirPngs p cs from rfl,
        List.mem_append]
      constructor
      · rintro (hm | hm)
        · rw [pngEntries, List.mem_filterMap] at hm
          obtain ⟨c, hc, heq⟩ := hm
          by_cases hext : entExt c = some "png"
          · rw [if_pos hext] at heq
            have hout : p ++ "/" ++ entName c = out := Option.some.inj heq
            rw [← hout]
            exact PngAt.here p s e cs c hc hext
          · rw [if_neg hext] at heq
            cases heq
        · obtain ⟨c, hc, hdir, hp2⟩ := (subdirPngs_mem p cs out).mp hm
          exact PngAt.deeper p s e cs c out hc hdir hp2
      · intro hp
        cases hp with
        | here _ _ _ _ c hc hext =>
          left
          rw [pngEntries, List.mem_filterMap]
          exact ⟨c, hc, by rw [if_pos hext]⟩
        | deeper _ _ _ _ c _ hc hdir hp2 =>
          right
          exact (subdirPngs_mem p cs out).mpr ⟨c, hc, hdir, hp2⟩

theorem subdirPngs_mem (p : String) (cs : List FSTree) (out : String) :
    out ∈ subdirPngs p cs ↔
      ∃ c ∈ cs, isDir c = true ∧ PngAt (p ++ "/" ++ entName c) c out := by
  cases cs with
  | nil => simp [subdirPngs]
  | cons c cs2 =>
    rw [show subdirPngs p (c :: cs2) =
      (if isDir c then findPngs (p ++ "/" ++ entName c) c else []) ++ subdirPngs p cs2
      from rfl, List.mem_append]
    constructor
    · rintro (hm | hm)
      · by_cases hdir : isDir c = true
        · rw [if_pos hdir] at hm
          exact ⟨c, List.mem_cons_self c cs2, hdir, (findPngs_mem _ c out).mp hm⟩
        · rw [if_neg (by simpa using hdir)] at hm
          simp at hm
      · obtain ⟨c2, hc2, hdir, hp2⟩ := (subdirPngs_mem p cs2 out).mp hm
        exact ⟨c2, List.mem_cons_of_mem c hc2, hdir, hp2⟩
    · rintro ⟨c2, hc2, hdir, hp2⟩
      rcases List.mem_cons.mp hc2 with hc2 | hc2
      · left
        subst hc2
        rw [if_pos hdir]
        exact (findPngs_mem _ c2 out).mpr hp2
      · right
        exact (subdirPngs_mem p cs2 out).mpr ⟨c2, hc2, hdir, hp2⟩

end

theorem subdirPngs_append (p : String) (cs ds : List FSTree) :
    subdirPngs p (cs ++ ds) = subdirPngs p cs ++ subdirPngs p ds := by
  induction cs with
  | nil => simp [subdirPngs]
  | cons c cs ih =>
    show (if isDir c then findPngs (p ++ "/" ++ entName c) c else []) ++
        subdirPngs p (cs ++ ds) = _
    rw [ih]
    rw [show subdirPngs p (c :: cs) =
      (if isDir c then findPngs (p ++ "/" ++ entName c) c else []) ++ subdirPngs p cs
      from rfl]
    rw [List.append_assoc]

/-- C8: Discovery returns exactly the paths of entries with extension
literally `"png"` reachable from the root through readable directories
(`PngAt` is the inductive reachability specification); an unreadable
directory contributes nothing, and one subtree's result never disturbs its
siblings (the walk distributes over concatenation of entries); on a root
with 3 matching files, 2 non-matching files (one differing only in case)
and a nested subdirectory holding 1 matching file, it returns exactly those
4 paths. -/
theorem C8_discovery_walk :
    (∀ p t out, out ∈ findPngs p t ↔ PngAt p t out) ∧
    (∀ p s e cs, findPngs p (.dir s e false cs) = []) ∧
    (∀ p cs ds, subdirPngs p (cs ++ ds) = subdirPngs p cs ++ subdirPngs p ds) ∧
    findPngs "." (.dir "root" none true
      [.file "a" (some "png"), .file "b" (some "png"), .file "c" (some "png"),
       .file "d" (some "txt"), .file "e" (some "PNG"),
       .dir "sub" none true [.file "f" (some "png")]]) =
      ["./a.png", "./b.png", "./c.png", "./sub/f.png"] := by
  refine ⟨findPngs_mem, fun p s e cs => rfl, subdirPngs_append, ?_⟩
  decide

/-- Witness for C8: the characterization instantiated at the concrete tree
produces the reachability fact for the nested match. -/
theorem C8_discovery_walk_witness :
    PngAt "." (.dir "root" none true
      [.file "a" (some "png"), .file "b" (some "png"), .file "c" (some "png"),
       .file "d" (some "txt"), .file "e" (some "PNG"),
       .dir "sub" none true [.file "f" (some "png")]]) "./sub/f.png" :=
  (C8_discovery_walk.1 "." (.dir "root" none true
      [.file "a" (some "png"), .file "b" (some "png"), .file "c" (some "png"),
       .file "d" (some "txt"), .file "e" (some "PNG"),
       .dir "sub" none true [.file "f" (some "png")]]) "./sub/f.png").mp (by decide)

/-- C9: every unit failure is caught at the unit's boundary and reported as
the line `<path>:<error>`; units are independent, so the walk over any
concatenation of paths processes both parts regardless of failures; and
after all units join the exit status is 0 — even when every unit failed. -/
theorem C9_unit_errors_nonfatal (proc : String → Except String Unit)
    (paths : List String) :
    (runBatch proc paths).2 = 0 ∧
    (∀ p ∈ paths, ∀ e, proc p = .error e → (p ++ ":" ++ e) ∈ (runBatch proc paths).1) ∧
    (∀ ps qs : List String,
      (runBatch proc (ps ++ qs)).1 = (runBatch proc ps).1 ++ (runBatch proc qs).1) ∧
    ((∀ p ∈ paths, ∃ e, proc p = .error e) → (runBatch proc paths).2 = 0) := by
  refine ⟨rfl, ?_, ?_, fun _ => rfl⟩
  · intro p hp e he
    show _ ∈ paths.filterMap fun p2 => unitReport (proc p2) p2
    rw [List.mem_filterMap]
    exact ⟨p, hp, by rw [he]; rfl⟩
  · intro ps qs
    show (ps ++ qs).filterMap _ = _
    rw [List.filterMap_append]
    rfl

/-- Witness for C9: a batch whose only unit fails still exits 0 and reports
the formatted line. -/
theorem C9_unit_errors_nonfatal_witness :
    (runBatch (fun _ => .error "boom") ["./x.png"]).2 = 0 ∧
    ("./x.png" ++ ":" ++ "boom") ∈ (runBatch (fun _ => .error "boom") ["./x.png"]).1 :=
  ⟨(C9_unit_errors_nonfatal (fun _ => .error "boom") ["./x.png"]).1,
   (C9_unit_errors_nonfatal (fun _ => .error "boom") ["./x.png"]).2.1 "./x.png"
     (by decide) "boom" rfl⟩

end PngSquasher
